import Mathlib

/-!
Verification of the MCP Server Selector dynamic environment configuration
subsystem.  The TypeScript sources (`environmentParser.ts`, `configManager.ts`,
`credentialsSender.ts`, `statusBar.ts`, `mcpSelector.ts`) are shallowly
embedded: strings are Lean `String`s manipulated through their `List Char`
data, the filesystem and workspace state are explicit parameters, and the
JavaScript string primitives used by the code (`split`, `trim`, `indexOf`,
`endsWith`, `replace` with a string pattern) are modelled by executable
list functions below.
-/

namespace MCPSelector

/-! ## JavaScript string primitive models -/

/-- Whitespace test used by the model of `String.prototype.trim`. -/
def isWS (c : Char) : Bool := c.isWhitespace

/-- Model of `str.trim()`: drop leading and trailing whitespace. -/
def trimL (l : List Char) : List Char :=
  ((l.dropWhile isWS).reverse.dropWhile isWS).reverse

/-- Model of `str.split(sep)` for a one-character separator: JavaScript
keeps empty pieces, and splitting the empty string yields `[""]`.  A
separator opens a new (initially empty) piece; any other character is
prepended to the current first piece. -/
def splitCh (sep : Char) : List Char → List (List Char)
  | [] => [[]]
  | a :: rest =>
    let r := splitCh sep rest
    if a = sep then [] :: r else (a :: r.headD []) :: r.tail

/-- Model of `arr.join(sep)` (used only for the canonical re-serialization
of a collection described by the specification). -/
def joinWith (sep : List Char) : List (List Char) → List Char
  | [] => []
  | [x] => x
  | x :: y :: rest => x ++ sep ++ joinWith sep (y :: rest)

/-- Model of `line.indexOf(':')` followed by the two `substring` calls:
returns the part strictly before the first colon and the part strictly
after it, or `none` when the line has no colon (`indexOf` returns `-1`). -/
def splitAtFirstColon : List Char → Option (List Char × List Char)
  | [] => none
  | c :: rest =>
    if c = ':' then some ([], rest)
    else (splitAtFirstColon rest).map (fun p => (c :: p.1, p.2))

/-- Model of `str.replace(pat, repl)` with a plain-string pattern:
JavaScript replaces only the first occurrence, anywhere in the string. -/
def replaceFirstL (pat repl : List Char) : List Char → List Char
  | [] => []
  | c :: rest =>
    if pat.isPrefixOf (c :: rest) then repl ++ (c :: rest).drop pat.length
    else c :: replaceFirstL pat repl rest

/-- Number of (possibly overlapping) occurrences of `pat` in a list:
the number of positions at which `pat` matches. -/
def countOcc (pat : List Char) : List Char → Nat
  | [] => 0
  | c :: rest => (if pat.isPrefixOf (c :: rest) then 1 else 0) + countOcc pat rest

/-- The single-quote character (used in validator error messages). -/
def squote : Char := Char.ofNat 39

/-- Wrap a string in single quotes, as the template literals in
`environmentParser.ts` do with `'${name}'`. -/
def sq (s : String) : String := ⟨squote :: (s.data ++ [squote])⟩

/-- Model of `path.join(a, b)`. -/
def pathJoin (a b : String) : String := a ++ "/" ++ b

/-! ## Data model (`environmentParser.ts` interfaces) -/

/-- `interface EnvironmentConfig` from `environmentParser.ts`. -/
structure EnvironmentConfig where
  displayName : String
  configFileName : String
  /-- 0-based index for color/icon assignment. -/
  position : Nat
deriving DecidableEq, Repr

/-- `interface EnvironmentCollection` from `environmentParser.ts`. -/
structure EnvironmentCollection where
  environments : List EnvironmentConfig
  totalCount : Nat
deriving DecidableEq, Repr

/-- `interface ValidationResult` from `environmentParser.ts`. -/
structure ValidationResult where
  isValid : Bool
  errors : List String
  warnings : List String
deriving DecidableEq, Repr

/-- The `DEFAULT_ENVIRONMENTS_CONTENT` template string. -/
def defaultEnvironmentsContent : String :=
  "# MCP Environment Configuration\n# Format: DisplayName:ConfigBaseName (extension .json is added automatically)\n# First environment = safest (green), last = most dangerous (red)\nLocal:mcp-local\nDev:mcp-dev\nProd:mcp-prod"

/-! ## Properties parser (`parseEnvironmentProps`) -/

/-- `'.json'` as a character list. -/
def jsonExt : List Char := ".json".data

/-- Model of `baseConfigFileName.endsWith('.json')`. -/
def hasJsonSuffix (l : List Char) : Bool := jsonExt.isSuffixOf l

/-- The line filter `line => line && !line.startsWith('#')` applied to the
already-trimmed lines. -/
def keepLine (l : List Char) : Bool := !l.isEmpty && !(l.head? == some '#')

/-- The candidate lines of a properties text: split on newlines, trim each
line, drop empty lines and `#` comments (shared by parser and validator). -/
def candidateLines (content : String) : List (List Char) :=
  ((splitCh '\n' content.data).map trimL).filter keepLine

/-- The per-line body of the `lines.forEach` in `parseEnvironmentProps`,
without the position: locate the first colon (skip the line if there is
none), trim both halves, normalize the `.json` suffix, and accept the line
only when both trimmed halves are non-empty. -/
def parseLineData (l : List Char) : Option (String × String) :=
  match splitAtFirstColon l with
  | none => none
  | some ab =>
    let displayName := trimL ab.1
    let baseConfigFileName := trimL ab.2
    let configFileName :=
      if hasJsonSuffix baseConfigFileName then baseConfigFileName
      else baseConfigFileName ++ jsonExt
    if !displayName.isEmpty && !baseConfigFileName.isEmpty then
      some (⟨displayName⟩, ⟨configFileName⟩)
    else none

/-- `parseEnvironmentProps` from `environmentParser.ts`.  Note that the
`position` stored in each descriptor is the `index` of the `forEach` over
the *candidate* lines, even when earlier candidate lines were dropped. -/
def parseEnvironmentProps (propsContent : String) : EnvironmentCollection :=
  let environments := (candidateLines propsContent).enum.filterMap
    (fun p => (parseLineData p.2).map
      (fun d => { displayName := d.1, configFileName := d.2, position := p.1 }))
  { environments := environments, totalCount := environments.length }

/-! ## Validators (`validateEnvironmentProps`, `validateEnvironmentConfig`) -/

/-- Character class `[a-zA-Z0-9._-]` of the file-name regex. -/
def regexCharOk (c : Char) : Bool :=
  c.isAlpha || c.isDigit || c = '.' || c = '_' || c = '-'

/-- Model of `/^[a-zA-Z0-9._-]+\.json$/.test(s)`: since `.`, `j`, `s`, `o`,
`n` all lie in the character class, the regex accepts exactly the strings
that end in `.json`, have at least one character before that suffix, and
consist solely of class characters. -/
def jsonNameRegexOk (s : String) : Bool :=
  hasJsonSuffix s.data && decide (6 ≤ s.data.length) && s.data.all regexCharOk

/-- Mutable state of the `lines.forEach` loop in `validateEnvironmentProps`:
the two accumulator arrays and the two `Set`s (modelled as lists, membership
via `contains`). -/
structure VState where
  errors : List String
  warnings : List String
  displayNames : List String
  configFiles : List String
deriving Repr

/-- The display-name validation block of the `forEach` body of
`validateEnvironmentProps`: empty-name error, duplicate error, or record
the name as seen. -/
def vStepName (lineNumber : Nat) (displayName : String) (st : VState) : VState :=
  if displayName.data.isEmpty then
    { st with errors := st.errors ++
        ["Line " ++ Nat.repr lineNumber ++ ": Empty display name"] }
  else if st.displayNames.contains displayName then
    { st with errors := st.errors ++
        ["Line " ++ Nat.repr lineNumber ++ ": Duplicate display name " ++ sq displayName] }
  else { st with displayNames := st.displayNames ++ [displayName] }

/-- The config-file validation block: empty-base error, duplicate error on
the normalized file name, or record it as seen. -/
def vStepFile (lineNumber : Nat) (baseConfigFile configFile : String) (st : VState) : VState :=
  if baseConfigFile.data.isEmpty then
    { st with errors := st.errors ++
        ["Line " ++ Nat.repr lineNumber ++ ": Empty config file name"] }
  else if st.configFiles.contains configFile then
    { st with errors := st.errors ++
        ["Line " ++ Nat.repr lineNumber ++ ": Duplicate config file " ++ sq configFile] }
  else { st with configFiles := st.configFiles ++ [configFile] }

/-- The long-display-name soft warning. -/
def vStepLong (lineNumber : Nat) (displayName : String) (st : VState) : VState :=
  if !displayName.data.isEmpty && decide (50 < displayName.data.length) then
    { st with warnings := st.warnings ++
        ["Line " ++ Nat.repr lineNumber ++ ": Display name " ++ sq displayName ++
          " is quite long (" ++ Nat.repr displayName.data.length ++ " characters)"] }
  else st

/-- The unusual-characters soft warning on the normalized file name. -/
def vStepChars (lineNumber : Nat) (configFile : String) (st : VState) : VState :=
  if !configFile.data.isEmpty && !jsonNameRegexOk configFile then
    { st with warnings := st.warnings ++
        ["Line " ++ Nat.repr lineNumber ++ ": Config file " ++ sq configFile ++
          " contains unusual characters"] }
  else st

/-- One iteration of the `lines.forEach` body of `validateEnvironmentProps`
(`index` is the 0-based iteration index, `lineNumber = index + 1`). -/
def processValidationLine (index : Nat) (line : List Char) (st : VState) : VState :=
  let lineNumber := index + 1
  match splitAtFirstColon line with
  | none =>
    { st with errors := st.errors ++
        ["Line " ++ Nat.repr lineNumber ++ ": Invalid format, expected " ++
          sq "DisplayName:ConfigFile"] }
  | some ab =>
    let displayName : String := ⟨trimL ab.1⟩
    let baseConfigFile : String := ⟨trimL ab.2⟩
    let configFile : String :=
      if hasJsonSuffix baseConfigFile.data then baseConfigFile
      else ⟨baseConfigFile.data ++ jsonExt⟩
    vStepChars lineNumber configFile
      (vStepLong lineNumber displayName
        (vStepFile lineNumber baseConfigFile configFile
          (vStepName lineNumber displayName st)))

/-- The `lines.forEach` loop of `validateEnvironmentProps`, with `k` the
index of the first line of `ls`. -/
def vLoop (k : Nat) (st : VState) : List (List Char) → VState
  | [] => st
  | l :: rest => vLoop (k + 1) (processValidationLine k l st) rest

/-- `validateEnvironmentProps` from `environmentParser.ts`. -/
def validateEnvironmentProps (content : String) : ValidationResult :=
  if (candidateLines content).isEmpty then
    { isValid := false, errors := ["No environments defined"], warnings := [] }
  else
    { isValid := (vLoop 0 ⟨[], [], [], []⟩ (candidateLines content)).errors.isEmpty,
      errors := (vLoop 0 ⟨[], [], [], []⟩ (candidateLines content)).errors,
      warnings := (vLoop 0 ⟨[], [], [], []⟩ (candidateLines content)).warnings }

/-- `path.join(os.homedir(), '.cursor', 'mcp-selector', 'envs')`, the
conventional per-environment configuration directory. -/
def envsDir (home : String) : String :=
  pathJoin (pathJoin (pathJoin home ".cursor") "mcp-selector") "envs"

/-- The duplicate-display-name block of the `config.forEach` body of
`validateEnvironmentConfig`. -/
def cStepName (displayName : String) (st : VState) : VState :=
  if st.displayNames.contains displayName then
    { st with errors := st.errors ++
        ["Duplicate display name: " ++ sq displayName] }
  else { st with displayNames := st.displayNames ++ [displayName] }

/-- The duplicate-config-file block of the `config.forEach` body of
`validateEnvironmentConfig`. -/
def cStepFile (configFileName : String) (st : VState) : VState :=
  if st.configFiles.contains configFileName then
    { st with errors := st.errors ++
        ["Duplicate config file: " ++ sq configFileName] }
  else { st with configFiles := st.configFiles ++ [configFileName] }

/-- The file-existence soft warning of `validateEnvironmentConfig`. -/
def cStepExists (home : String) (fileExistsAt : String → Bool)
    (configFileName : String) (st : VState) : VState :=
  if !fileExistsAt (pathJoin (envsDir home) configFileName) then
    { st with warnings := st.warnings ++
        ["Config file not found: " ++ sq configFileName ++ " at " ++
          pathJoin (envsDir home) configFileName] }
  else st

/-- One iteration of the `config.forEach` body of
`validateEnvironmentConfig`.  `fileExistsAt` models `fs.existsSync` on the
full path of a config file. -/
def processConfigEntry (home : String) (fileExistsAt : String → Bool)
    (env : EnvironmentConfig) (st : VState) : VState :=
  cStepExists home fileExistsAt env.configFileName
    (cStepFile env.configFileName (cStepName env.displayName st))

/-- The `config.forEach` loop of `validateEnvironmentConfig`. -/
def cLoop (home : String) (fileExistsAt : String → Bool) (st : VState) :
    List EnvironmentConfig → VState
  | [] => st
  | e :: rest => cLoop home fileExistsAt (processConfigEntry home fileExistsAt e st) rest

/-- `validateEnvironmentConfig` from `environmentParser.ts` (the home
directory and the file-existence capability are explicit parameters). -/
def validateEnvironmentConfig (home : String) (fileExistsAt : String → Bool)
    (config : List EnvironmentConfig) : ValidationResult :=
  if config.isEmpty then
    { isValid := false, errors := ["No environments defined"], warnings := [] }
  else
    { isValid := (cLoop home fileExistsAt ⟨[], [], [], []⟩ config).errors.isEmpty,
      errors := (cLoop home fileExistsAt ⟨[], [], [], []⟩ config).errors,
      warnings := (cLoop home fileExistsAt ⟨[], [], [], []⟩ config).warnings }

/-! ## Configuration loader (`loadEnvironmentConfiguration`) -/

/-- Filesystem state visible to `loadEnvironmentConfiguration`:
whether the props file exists, whether `createDefaultEnvironmentProps`
would throw when invoked (directory creation / write failure), and the
outcome of `fs.readFileSync` on the props path after the optional creation
step (`none` models a thrown read error, e.g. permission failure). -/
structure LoaderFS where
  propsExists : Bool
  createThrows : Bool
  readResult : Option String

/-- The `try` block of `loadEnvironmentConfiguration`: `none` means some
step threw.  The text-level validation result is computed but only its
warnings are logged; its errors never alter the control flow. -/
def loadAttempt (fs : LoaderFS) : Option EnvironmentCollection :=
  if !fs.propsExists && fs.createThrows then none
  else
    match fs.readResult with
    | none => none
    | some content =>
      let _validation := validateEnvironmentProps content
      some (parseEnvironmentProps content)

/-- `loadEnvironmentConfiguration` from `environmentParser.ts`: on any
exception the `catch` branch parses the in-memory default template. -/
def loadEnvironmentConfiguration (fs : LoaderFS) : EnvironmentCollection :=
  match loadAttempt fs with
  | some coll => coll
  | none => parseEnvironmentProps defaultEnvironmentsContent

/-! ## Derived metadata (`statusBar.ts`) -/

/-- The `find` over the loaded environments shared by `getEnvironmentColor`,
`getEnvironmentIcon` and `getConfigFileBase`. -/
def findEnv (coll : EnvironmentCollection) (displayName : String) :
    Option EnvironmentConfig :=
  coll.environments.find? (fun e => e.displayName == displayName)

/-- `getEnvironmentColor` from `statusBar.ts`, as a function of the loaded
collection. -/
def getEnvironmentColor (coll : EnvironmentCollection) (displayName : String) : String :=
  match findEnv coll displayName with
  | none => "#4caf50"
  | some env =>
    if coll.totalCount = 1 then "#4caf50"
    else if env.position = 0 then "#4caf50"
    else if env.position = coll.totalCount - 1 then "#f44336"
    else "#ff9800"

/-- `getEnvironmentIcon` from `statusBar.ts`, as a function of the loaded
collection. -/
def getEnvironmentIcon (coll : EnvironmentCollection) (displayName : String) : String :=
  match findEnv coll displayName with
  | none => "$(desktop-download)"
  | some env =>
    if coll.totalCount = 1 then "$(desktop-download)"
    else if env.position = 0 then "$(desktop-download)"
    else if env.position = coll.totalCount - 1 then "$(rocket)"
    else "$(beaker)"

/-! ## Cycle-next transition (`mcpSelector.ts`, `switchEnvironment`) -/

/-- The next-environment computation of `switchEnvironment`:
`findIndex` yields `-1` when the current display name is unknown, and the
next index is `(currentIndex + 1) % length` in JavaScript (signed)
arithmetic.  Returns `none` when the collection is empty (the source
shows a warning and returns early in that case). -/
def nextEnvironmentName (coll : EnvironmentCollection) (currentEnv : String) :
    Option String :=
  if coll.environments.length = 0 then none
  else
    let currentIndex : Int :=
      match coll.environments.findIdx? (fun e => e.displayName == currentEnv) with
      | some i => (i : Int)
      | none => -1
    let nextIndex : Int := (currentIndex + 1) % (coll.environments.length : Int)
    (coll.environments.get? nextIndex.toNat).map (fun e => e.displayName)

/-! ## Config manager (`configManager.ts`) -/

/-- `getConfigFileBase`: find the environment and strip `.json` via
`configFileName.replace('.json', '')` (first occurrence, anywhere). -/
def getConfigFileBase (coll : EnvironmentCollection) (displayName : String) :
    Option String :=
  (findEnv coll displayName).map
    (fun env => ⟨replaceFirstL jsonExt [] env.configFileName.data⟩)

/-- `getConfigFilePath`: `none` models the thrown
`Unknown environment` error. -/
def getConfigFilePath (home : String) (coll : EnvironmentCollection)
    (displayName : String) : Option String :=
  (getConfigFileBase coll displayName).map
    (fun fileBase => pathJoin (envsDir home) (fileBase ++ ".json"))

/-- `getIdpUrlFilePath`: the optional companion endpoint-URL file of an
environment. -/
def getIdpUrlFilePath (home : String) (coll : EnvironmentCollection)
    (displayName : String) : Option String :=
  (getConfigFileBase coll displayName).map
    (fun fileBase => pathJoin (envsDir home) (fileBase ++ "-idp-url.txt"))

/-- Filesystem state visible to one `switchToEnvironment` call, for the
environment being switched to: whether its config file exists, whether the
`copyFileSync` of the config succeeds when attempted, whether its optional
companion IDP-URL file exists, and whether copying that file succeeds. -/
structure SwitchFS where
  configFileExists : Bool
  configCopySucceeds : Bool
  idpFileExists : Bool
  idpCopySucceeds : Bool
deriving Repr

/-- `copyConfigToCursor`: `none` models the `Unknown environment` throw of
`getConfigFilePath`; `some false` covers both the missing-source early
return and a caught copy exception. -/
def copyConfigToCursor (coll : EnvironmentCollection) (fs : SwitchFS)
    (displayName : String) : Option Bool :=
  match getConfigFileBase coll displayName with
  | none => none
  | some _ =>
    if !fs.configFileExists then some false
    else if fs.configCopySucceeds then some true
    else some false

/-- `copyIdpUrlToCursor`: a missing companion file is explicitly *not* an
error — the function returns `true` in that case; only a caught copy
exception yields `false`. -/
def copyIdpUrlToCursor (coll : EnvironmentCollection) (fs : SwitchFS)
    (displayName : String) : Option Bool :=
  match getConfigFileBase coll displayName with
  | none => none
  | some _ =>
    if !fs.idpFileExists then some true
    else if fs.idpCopySucceeds then some true
    else some false

/-- Observable outcome of one `switchToEnvironment` call: the returned
boolean, the value written to the `mcpCurrentEnv` workspace-state key, and
whether the immediate `sendCredentials` call was made. -/
structure SwitchResult where
  success : Bool
  persistedEnv : String
  credentialsSendTriggered : Bool
deriving DecidableEq, Repr

/-- `switchToEnvironment` from `configManager.ts` (lines 251-288):
copy the config, copy the optional IDP URL, *unconditionally* persist the
new display name, and trigger the one-shot credentials send exactly when
`success && idpUrlCopied`.  The token-template replacement step only
rewrites file contents and is not observable through `SwitchResult`. -/
def switchToEnvironment (coll : EnvironmentCollection) (fs : SwitchFS)
    (displayName : String) : Option SwitchResult := do
  let configCopied ← copyConfigToCursor coll fs displayName
  let idpUrlCopied ← copyIdpUrlToCursor coll fs displayName
  some { success := configCopied
         persistedEnv := displayName
         credentialsSendTriggered := configCopied && idpUrlCopied }

/-! ## Credentials sender timer (`credentialsSender.ts`) -/

/-- Module state of `credentialsSender.ts` together with the host timer
table: `interval` is the `credentialsSenderInterval` handle, `live` the
set of interval timers the host still runs, and `nextHandle` a fresh-id
source for `setInterval`. -/
structure SenderState where
  interval : Option Nat
  nextHandle : Nat
  live : List Nat
deriving DecidableEq, Repr

/-- The initial module state: no handle, no live timer. -/
def initialSenderState : SenderState := ⟨none, 0, []⟩

/-- `startCredentialsSender`: a no-op when the handle is already set
(idempotent-start guard) or when the IDP URL file is absent; otherwise
`setInterval` creates one fresh timer and its handle is stored. -/
def startCredentialsSender (idpUrlFileExists : Bool) (s : SenderState) : SenderState :=
  match s.interval with
  | some _ => s
  | none =>
    if !idpUrlFileExists then s
    else { interval := some s.nextHandle
           nextHandle := s.nextHandle + 1
           live := s.nextHandle :: s.live }

/-- `stopCredentialsSender`: `clearInterval` the stored handle and clear
it; a no-op when no handle is stored. -/
def stopCredentialsSender (s : SenderState) : SenderState :=
  match s.interval with
  | some h => { s with interval := none, live := s.live.erase h }
  | none => s

/-- One lifecycle call: a `start` (with the IDP URL file either present or
absent at that moment) or a `stop`. -/
inductive SenderOp where
  | start (idpUrlFileExists : Bool)
  | stop
deriving DecidableEq, Repr

/-- Apply one lifecycle call to the sender state. -/
def applySenderOp (op : SenderOp) (s : SenderState) : SenderState :=
  match op with
  | .start b => startCredentialsSender b s
  | .stop => stopCredentialsSender s

/-- Run a sequence of lifecycle calls from the initial state. -/
def runSenderOps (ops : List SenderOp) : SenderState :=
  ops.foldl (fun s op => applySenderOp op s) initialSenderState

/-! ## Further model-level definitions used by the claims -/

/-- The at-most-one-timer invariant of the credentials sender: either no
handle is stored and no timer is live, or the stored handle is the single
live timer. -/
def SenderInv (s : SenderState) : Prop :=
  (s.interval = none ∧ s.live = []) ∨ (∃ h, s.interval = some h ∧ s.live = [h])

/-- The tail of the parsing pipeline: descriptors built from the candidate
lines enumerated from index `k`. -/
def envsFrom (k : Nat) (ls : List (List Char)) : List EnvironmentConfig :=
  (List.enumFrom k ls).filterMap
    (fun p => (parseLineData p.2).map
      (fun d => { displayName := d.1, configFileName := d.2, position := p.1 }))

/-- Structural invariants of every descriptor the parser emits: both
strings are non-empty, trim-fixed and newline-free, the display name is
colon-free, does not start with `#`, and the config file name carries the
`.json` suffix. -/
def GoodEnv (e : EnvironmentConfig) : Prop :=
  e.displayName.data ≠ [] ∧
  e.configFileName.data ≠ [] ∧
  trimL e.displayName.data = e.displayName.data ∧
  trimL e.configFileName.data = e.configFileName.data ∧
  ':' ∉ e.displayName.data ∧
  '\n' ∉ e.displayName.data ∧
  '\n' ∉ e.configFileName.data ∧
  e.displayName.data.head? ≠ some '#' ∧
  jsonExt <:+ e.configFileName.data

/-- One line of the canonical re-serialization described by the
specification: `displayName:configFileName`. -/
def lineOf (e : EnvironmentConfig) : List Char :=
  e.displayName.data ++ ':' :: e.configFileName.data

/-- The canonical re-serialization of a collection: one
`displayName:configFileName` line per descriptor, in sequence order,
joined by newlines. -/
def serializeCollection (c : EnvironmentCollection) : String :=
  ⟨joinWith ['\n'] (c.environments.map lineOf)⟩

/-- The display name the text validator computes for a candidate line
(`none` when the line has no colon or the trimmed name is empty). -/
def extractName (l : List Char) : Option String :=
  match splitAtFirstColon l with
  | none => none
  | some ab => if (trimL ab.1).isEmpty then none else some ⟨trimL ab.1⟩

/-- The normalized config file name the text validator computes for a
candidate line (`none` when the line has no colon or the trimmed base is
empty). -/
def extractFile (l : List Char) : Option String :=
  match splitAtFirstColon l with
  | none => none
  | some ab =>
    if (trimL ab.2).isEmpty then none
    else some (if hasJsonSuffix (trimL ab.2) then (⟨trimL ab.2⟩ : String)
               else ⟨trimL ab.2 ++ jsonExt⟩)

/-- `pat` occurs as a contiguous substring of `msg`. -/
def containsSub (pat : List Char) (msg : String) : Prop :=
  ∃ u v, msg.data = u ++ pat ++ v

/-- `msg` names a duplicate display name: it contains the phrase
`Duplicate display name` and the single-quoted name. -/
def mentionsDupName (dn msg : String) : Prop :=
  containsSub ("Duplicate display name").data msg ∧ containsSub (sq dn).data msg

/-- `msg` names a duplicate config file: it contains the phrase
`Duplicate config file` and the single-quoted file name. -/
def mentionsDupFile (cf msg : String) : Prop :=
  containsSub ("Duplicate config file").data msg ∧ containsSub (sq cf).data msg

/-- The normalized config file name computed for a split candidate line. -/
def cfOf (ab : List Char × List Char) : String :=
  if hasJsonSuffix (trimL ab.2) then (⟨trimL ab.2⟩ : String)
  else ⟨trimL ab.2 ++ jsonExt⟩

/-! ## Shared list utility lemmas -/

theorem dropWhile_head_false {p : Char → Bool} {l : List Char} {c : Char} {t : List Char}
    (h : l.dropWhile p = c :: t) : p c = false := by
  induction l with
  | nil => simp at h
  | cons a l ih =>
    rw [List.dropWhile_cons] at h
    by_cases ha : p a = true
    · exact ih (by simpa [ha] using h)
    · obtain ⟨rfl, -⟩ : a = c ∧ l = t := by
        constructor <;> simp_all
      simpa using ha

theorem suffix_getLast? {s l : List Char} (h : s <:+ l) (hne : s ≠ []) :
    s.getLast? = l.getLast? := by
  obtain ⟨t, rfl⟩ := h
  exact (List.getLast?_append_of_ne_nil t hne).symm

theorem mem_trimL {x : Char} {l : List Char} (h : x ∈ trimL l) : x ∈ l := by
  unfold trimL at h
  rw [List.mem_reverse] at h
  have h1 := (List.dropWhile_suffix isWS).subset h
  rw [List.mem_reverse] at h1
  exact (List.dropWhile_suffix isWS).subset h1

theorem trimL_head_not_ws {l : List Char} {c : Char} (h : (trimL l).head? = some c) :
    isWS c = false := by
  unfold trimL at h
  rw [List.head?_reverse] at h
  set X := ((l.dropWhile isWS).reverse.dropWhile isWS) with hX
  have hXne : X ≠ [] := by
    intro hnil
    rw [hnil] at h
    simp at h
  have hsuf : X <:+ (l.dropWhile isWS).reverse := List.dropWhile_suffix isWS
  rw [suffix_getLast? hsuf hXne, List.getLast?_reverse] at h
  obtain ⟨t, ht⟩ : ∃ t, l.dropWhile isWS = c :: t := by
    cases hd : l.dropWhile isWS with
    | nil => rw [hd] at h; simp at h
    | cons a t => rw [hd] at h; simp at h; exact ⟨t, by rw [h]⟩
  exact dropWhile_head_false ht

theorem trimL_getLast_not_ws {l : List Char} {z : Char} (h : (trimL l).getLast? = some z) :
    isWS z = false := by
  unfold trimL at h
  rw [List.getLast?_reverse] at h
  obtain ⟨t, ht⟩ : ∃ t, (l.dropWhile isWS).reverse.dropWhile isWS = z :: t := by
    cases hd : (l.dropWhile isWS).reverse.dropWhile isWS with
    | nil => rw [hd] at h; simp at h
    | cons a t => rw [hd] at h; simp at h; exact ⟨t, by rw [h]⟩
  exact dropWhile_head_false ht

theorem trimL_eq_self_of_edges {l : List Char}
    (hh : ∀ c, l.head? = some c → isWS c = false)
    (hl : ∀ z, l.getLast? = some z → isWS z = false) : trimL l = l := by
  cases l with
  | nil => rfl
  | cons c t =>
    have hc : isWS c = false := hh c rfl
    have hd : List.dropWhile isWS (c :: t) = c :: t := by
      rw [List.dropWhile_cons, hc]
      simp
    unfold trimL
    rw [hd]
    cases hrev : (c :: t).reverse with
    | nil => exact absurd hrev (by simp)
    | cons z w =>
      have hz : isWS z = false := by
        apply hl
        rw [← List.head?_reverse, hrev]
        rfl
      have hd2 : List.dropWhile isWS (z :: w) = z :: w := by
        rw [List.dropWhile_cons, hz]
        simp
      rw [hd2, ← hrev, List.reverse_reverse]

theorem trimL_idem (l : List Char) : trimL (trimL l) = trimL l :=
  trimL_eq_self_of_edges (fun _ h => trimL_head_not_ws h) (fun _ h => trimL_getLast_not_ws h)

theorem trimFixed_head_not_ws {l : List Char} {c : Char} (hfix : trimL l = l)
    (h : l.head? = some c) : isWS c = false :=
  trimL_head_not_ws (by rw [hfix]; exact h)

theorem trimFixed_getLast_not_ws {l : List Char} {z : Char} (hfix : trimL l = l)
    (h : l.getLast? = some z) : isWS z = false :=
  trimL_getLast_not_ws (by rw [hfix]; exact h)

theorem splitAtFirstColon_cons (c : Char) (rest : List Char) :
    splitAtFirstColon (c :: rest) =
      if c = ':' then some ([], rest)
      else (splitAtFirstColon rest).map (fun p => (c :: p.1, p.2)) := rfl

theorem splitAtFirstColon_spec {l a b : List Char}
    (h : splitAtFirstColon l = some (a, b)) : l = a ++ ':' :: b ∧ ':' ∉ a := by
  induction l generalizing a b with
  | nil => simp [splitAtFirstColon] at h
  | cons c rest ih =>
    rw [splitAtFirstColon_cons] at h
    by_cases hc : c = ':'
    · rw [if_pos hc] at h
      obtain ⟨ha, hb⟩ := Prod.mk.inj (Option.some.inj h)
      subst hc; subst hb
      rw [← ha]
      exact ⟨rfl, by simp⟩
    · rw [if_neg hc] at h
      cases hs : splitAtFirstColon rest with
      | none => rw [hs] at h; simp at h
      | some q =>
        rw [hs] at h
        obtain ⟨ha, hb⟩ := Prod.mk.inj (Option.some.inj h)
        obtain ⟨hl, hna⟩ := ih (a := q.1) (b := q.2) (by rw [hs])
        subst hb
        rw [← ha]
        refine ⟨by rw [hl]; rfl, ?_⟩
        intro hmem
        rcases List.mem_cons.mp hmem with heq | hx
        · exact hc heq.symm
        · exact hna hx

theorem splitAtFirstColon_of_eq {a : List Char} (b : List Char) (hna : ':' ∉ a) :
    splitAtFirstColon (a ++ ':' :: b) = some (a, b) := by
  induction a with
  | nil => simp [splitAtFirstColon]
  | cons c t ih =>
    have hc : c ≠ ':' := by intro h; exact hna (by simp [h])
    have hnt : ':' ∉ t := fun h => hna (List.mem_cons_of_mem _ h)
    rw [List.cons_append, splitAtFirstColon_cons, if_neg hc, ih hnt]
    rfl

theorem splitCh_cons (sep a : Char) (rest : List Char) :
    splitCh sep (a :: rest) =
      if a = sep then [] :: splitCh sep rest
      else (a :: (splitCh sep rest).headD []) :: (splitCh sep rest).tail := rfl

theorem splitCh_ne_nil (sep : Char) (l : List Char) : splitCh sep l ≠ [] := by
  cases l with
  | nil => simp [splitCh]
  | cons a rest => rw [splitCh_cons]; by_cases ha : a = sep <;> simp [ha]

theorem mem_splitCh_not_sep {sep : Char} {p l : List Char} (h : p ∈ splitCh sep l) :
    sep ∉ p := by
  induction l generalizing p with
  | nil =>
    simp [splitCh] at h
    simp [h]
  | cons a rest ih =>
    rw [splitCh_cons] at h
    by_cases ha : a = sep
    · rw [if_pos ha] at h
      rcases List.mem_cons.mp h with rfl | h2
      · simp
      · exact ih h2
    · rw [if_neg ha] at h
      rcases List.mem_cons.mp h with rfl | h2
      · intro hmem
        rcases List.mem_cons.mp hmem with heq | hx
        · exact ha heq.symm
        · cases hr : splitCh sep rest with
          | nil => exact absurd hr (splitCh_ne_nil sep rest)
          | cons h₀ t₀ =>
            rw [hr] at hx
            exact ih (by rw [hr]; exact List.mem_cons_self h₀ t₀) (by simpa using hx)
      · exact ih (List.mem_of_mem_tail h2)

theorem splitCh_of_no_sep {sep : Char} {l : List Char} (h : sep ∉ l) :
    splitCh sep l = [l] := by
  induction l with
  | nil => rfl
  | cons a rest ih =>
    have ha : a ≠ sep := fun hc => h (by simp [hc])
    have hr : sep ∉ rest := fun hc => h (List.mem_cons_of_mem _ hc)
    rw [splitCh_cons, if_neg ha, ih hr]
    rfl

theorem splitCh_append_sep {sep : Char} {x : List Char} (rest : List Char) (h : sep ∉ x) :
    splitCh sep (x ++ sep :: rest) = x :: splitCh sep rest := by
  induction x with
  | nil =>
    rw [List.nil_append, splitCh_cons, if_pos rfl]
  | cons a t ih =>
    have ha : a ≠ sep := fun hc => h (by simp [hc])
    have ht : sep ∉ t := fun hc => h (List.mem_cons_of_mem _ hc)
    rw [List.cons_append, splitCh_cons, if_neg ha, ih ht]
    rfl

/-! ## Claim C1 -/

/-- C1: the claim states that `loadEnvironmentConfiguration` never returns a
collection with zero environments and substitutes the 3-entry default when
the file's candidate lines yield no entries.  Evaluating the embedded
loader at the failing input used by the repository's own integration test
("Fallback on invalid configuration"): the props file exists and reads as
three malformed lines, the text validator rejects the content, yet the
loader ignores validation errors, raises nothing, and returns the *empty*
collection instead of the 3-entry default that parsing the in-memory
template would give. -/
theorem C1_loader_returns_empty_on_all_malformed_lines :
    loadEnvironmentConfiguration
        { propsExists := true, createThrows := false,
          readResult := some "InvalidLine\nLocal:\n:mcp-file.json" } =
      { environments := [], totalCount := 0 } ∧
    (validateEnvironmentProps "InvalidLine\nLocal:\n:mcp-file.json").isValid = false ∧
    (parseEnvironmentProps defaultEnvironmentsContent).totalCount = 3 := by
  refine ⟨by decide, by decide, by decide⟩

/-! ## Claim C9 -/

theorem senderInv_apply (op : SenderOp) (s : SenderState) (h : SenderInv s) :
    SenderInv (applySenderOp op s) := by
  cases op with
  | start b =>
    rcases h with ⟨h1, h2⟩ | ⟨x, h1, h2⟩
    · cases s with
      | mk i n l =>
        simp at h1 h2
        subst h1; subst h2
        by_cases hb : b
        · subst hb
          right
          exact ⟨n, by simp [applySenderOp, startCredentialsSender]⟩
        · left
          simp at hb
          subst hb
          simp [applySenderOp, startCredentialsSender]
    · right
      exact ⟨x, by simp [applySenderOp, startCredentialsSender, h1], by
        simp [applySenderOp, startCredentialsSender, h1, h2]⟩
  | stop =>
    rcases h with ⟨h1, h2⟩ | ⟨x, h1, h2⟩
    · left
      exact ⟨by simp [applySenderOp, stopCredentialsSender, h1], by
        simp [applySenderOp, stopCredentialsSender, h1, h2]⟩
    · left
      constructor
      · simp [applySenderOp, stopCredentialsSender, h1]
      · simp [applySenderOp, stopCredentialsSender, h1, h2]

theorem senderInv_run (ops : List SenderOp) : SenderInv (runSenderOps ops) := by
  have main : ∀ (l : List SenderOp) (s : SenderState), SenderInv s →
      SenderInv (l.foldl (fun s op => applySenderOp op s) s) := by
    intro l
    induction l with
    | nil => intro s hs; exact hs
    | cons op rest ih =>
      intro s hs
      exact ih _ (senderInv_apply op s hs)
  exact main ops initialSenderState (Or.inl ⟨rfl, rfl⟩)

/-- C9: in every state reachable by a sequence of start/stop calls, at most
one interval timer is live; starting while a timer runs changes nothing,
stopping while no timer runs changes nothing, and a stop always cancels
and clears the stored handle. -/
theorem C9_sender_lifecycle (ops : List SenderOp) :
    (runSenderOps ops).live.length ≤ 1 ∧
    (∀ (b : Bool) (h : Nat), (runSenderOps ops).interval = some h →
      startCredentialsSender b (runSenderOps ops) = runSenderOps ops) ∧
    ((runSenderOps ops).interval = none →
      stopCredentialsSender (runSenderOps ops) = runSenderOps ops) ∧
    (∀ h : Nat, (runSenderOps ops).interval = some h →
      (stopCredentialsSender (runSenderOps ops)).interval = none ∧
      h ∉ (stopCredentialsSender (runSenderOps ops)).live) := by
  have hinv := senderInv_run ops
  set s := runSenderOps ops with hs
  refine ⟨?_, ?_, ?_, ?_⟩
  · rcases hinv with ⟨-, h2⟩ | ⟨x, -, h2⟩ <;> simp [h2]
  · intro b h hsome
    simp [startCredentialsSender, hsome]
  · intro hnone
    simp [stopCredentialsSender, hnone]
  · intro h hsome
    rcases hinv with ⟨h1, -⟩ | ⟨x, h1, h2⟩
    · rw [h1] at hsome; cases hsome
    · rw [h1] at hsome
      obtain rfl : x = h := by injection hsome
      constructor
      · simp [stopCredentialsSender, h1]
      · simp [stopCredentialsSender, h1, h2]

/-- Witness for C9 at the concrete call sequence `[start, start, stop]`
with the IDP URL file present. -/
theorem C9_sender_lifecycle_witness :
    (runSenderOps [SenderOp.start true, SenderOp.start true]).live.length ≤ 1 ∧
    startCredentialsSender true (runSenderOps [SenderOp.start true, SenderOp.start true]) =
      runSenderOps [SenderOp.start true, SenderOp.start true] ∧
    (stopCredentialsSender (runSenderOps [SenderOp.start true, SenderOp.start true])).interval
      = none := by
  obtain ⟨h1, h2, h3, h4⟩ := C9_sender_lifecycle [SenderOp.start true, SenderOp.start true]
  exact ⟨h1, h2 true 0 (by decide), (h4 0 (by decide)).1⟩

/-! ## Claim C4 -/

/-- C4: when the requested display name is present in the collection but
its backing config file does not exist on disk, `switchToEnvironment`
still persists the new display name in the `mcpCurrentEnv` workspace key
and returns `false`; the one-shot credentials send is not triggered. -/
theorem C4_switch_missing_file_persists_and_fails (coll : EnvironmentCollection)
    (fs : SwitchFS) (d : String) (env : EnvironmentConfig)
    (hfind : findEnv coll d = some env)
    (hmissing : fs.configFileExists = false) :
    switchToEnvironment coll fs d =
      some { success := false, persistedEnv := d, credentialsSendTriggered := false } := by
  have hbase : getConfigFileBase coll d =
      some ⟨replaceFirstL jsonExt [] env.configFileName.data⟩ := by
    simp [getConfigFileBase, hfind]
  simp [switchToEnvironment, copyConfigToCursor, copyIdpUrlToCursor, hbase, hmissing,
    Option.bind]
  by_cases h1 : fs.idpFileExists <;> by_cases h2 : fs.idpCopySucceeds <;>
    simp [h1, h2, Option.bind]

/-- Witness for C4: switching to `Local` of the default collection while
its config file is missing. -/
theorem C4_switch_missing_file_witness :
    switchToEnvironment (parseEnvironmentProps defaultEnvironmentsContent)
        { configFileExists := false, configCopySucceeds := true,
          idpFileExists := true, idpCopySucceeds := true } "Local" =
      some { success := false, persistedEnv := "Local",
             credentialsSendTriggered := false } :=
  C4_switch_missing_file_persists_and_fails _ _ _
    { displayName := "Local", configFileName := "mcp-local.json", position := 0 }
    (by decide) (by decide)

/-! ## Claim C3 -/

/-- C3 counterexample: the claim says the one-shot credential send is
triggered only when the companion endpoint-URL file was *present*.  At the
concrete state below the config copy succeeds, the companion file is
absent, and the send is nevertheless triggered, because
`copyIdpUrlToCursor` reports `true` for a missing (optional) file. -/
theorem C3_counterexample_send_without_companion :
    (switchToEnvironment
        { environments := [{ displayName := "Local", configFileName := "mcp-local.json",
                             position := 0 }], totalCount := 1 }
        { configFileExists := true, configCopySucceeds := true,
          idpFileExists := false, idpCopySucceeds := true } "Local" =
      some { success := true, persistedEnv := "Local",
             credentialsSendTriggered := true }) ∧
    ({ configFileExists := true, configCopySucceeds := true,
       idpFileExists := false, idpCopySucceeds := true : SwitchFS }).idpFileExists = false := by
  exact ⟨by decide, by decide⟩

/-- C3 (amended): in every accepted switch transition the one-shot
credential send is triggered if and only if the apply step succeeded and
the companion-file copy step reported success — where a *missing*
companion file also reports success (it is optional); only a failed copy
of a present companion file suppresses the send. -/
theorem C3_send_iff_apply_and_companion_step (coll : EnvironmentCollection)
    (fs : SwitchFS) (d : String) (r : SwitchResult)
    (h : switchToEnvironment coll fs d = some r) :
    r.credentialsSendTriggered = true ↔
      (r.success = true ∧ (fs.idpFileExists = false ∨ fs.idpCopySucceeds = true)) := by
  cases hbase : getConfigFileBase coll d with
  | none =>
    simp [switchToEnvironment, copyConfigToCursor, hbase, Option.bind] at h
  | some base =>
    by_cases h1 : fs.configFileExists <;> by_cases h2 : fs.configCopySucceeds <;>
      by_cases h3 : fs.idpFileExists <;> by_cases h4 : fs.idpCopySucceeds <;>
      · simp [switchToEnvironment, copyConfigToCursor, copyIdpUrlToCursor, hbase,
          h1, h2, h3, h4, Option.bind] at h
        subst h
        simp [h3, h4]

/-- Witness for C3 (amended): config copy succeeds and the companion file
is present and copies successfully, so the send is triggered. -/
theorem C3_send_iff_witness :
    switchToEnvironment (parseEnvironmentProps defaultEnvironmentsContent)
        { configFileExists := true, configCopySucceeds := true,
          idpFileExists := true, idpCopySucceeds := true } "Dev" =
      some { success := true, persistedEnv := "Dev", credentialsSendTriggered := true } ∧
    ({ success := true, persistedEnv := "Dev",
       credentialsSendTriggered := true } : SwitchResult).credentialsSendTriggered = true := by
  have h : switchToEnvironment (parseEnvironmentProps defaultEnvironmentsContent)
      { configFileExists := true, configCopySucceeds := true,
        idpFileExists := true, idpCopySucceeds := true } "Dev" =
      some { success := true, persistedEnv := "Dev", credentialsSendTriggered := true } := by
    decide
  exact ⟨h, (C3_send_iff_apply_and_companion_step _ _ _ _ h).mpr ⟨by decide,
    Or.inr (by decide)⟩⟩

/-! ## Claim C7 -/

/-- C7: for a non-empty loaded collection, cycle-next selects the display
name at index `(i + 1) % totalCount` where `i` is the index of the current
display name (`-1`, hence next index `0`, when it is not found); cycling
from the last position wraps to position `0`, and an unrecognized current
value lands on position `0`. -/
theorem C7_cycle_next (coll : EnvironmentCollection) (cur : String)
    (hne : 0 < coll.environments.length) :
    (∀ i, coll.environments.findIdx? (fun e => e.displayName == cur) = some i →
      nextEnvironmentName coll cur =
        some ((coll.environments.get ⟨(i + 1) % coll.environments.length,
          Nat.mod_lt _ hne⟩).displayName)) ∧
    (coll.environments.findIdx? (fun e => e.displayName == cur) = none →
      nextEnvironmentName coll cur =
        some ((coll.environments.get ⟨0, hne⟩).displayName)) ∧
    (coll.environments.findIdx? (fun e => e.displayName == cur) =
        some (coll.environments.length - 1) →
      nextEnvironmentName coll cur =
        some ((coll.environments.get ⟨0, hne⟩).displayName)) := by
  have hlen : ¬ coll.environments.length = 0 := by omega
  refine ⟨?_, ?_, ?_⟩
  · intro i hi
    have hcast : (((i : Int) + 1) % (coll.environments.length : Int)).toNat
        = (i + 1) % coll.environments.length := by
      have h1 : ((i : Int) + 1) = ((i + 1 : Nat) : Int) := by push_cast; ring
      rw [h1]
      norm_cast
    simp only [nextEnvironmentName, hi, if_neg hlen]
    rw [hcast, List.get?_eq_get (Nat.mod_lt _ hne)]
    rfl
  · intro hnone
    have hcast : (((-1 : Int) + 1) % (coll.environments.length : Int)).toNat = 0 := by
      norm_num
    simp only [nextEnvironmentName, hnone, if_neg hlen]
    rw [hcast, List.get?_eq_get hne]
    rfl
  · intro hlast
    have hcast : ((((coll.environments.length - 1 : Nat) : Int) + 1) %
        (coll.environments.length : Int)).toNat = 0 := by
      have h1 : ((coll.environments.length - 1 : Nat) : Int) + 1 =
          (coll.environments.length : Int) := by omega
      rw [h1, Int.emod_self]
      rfl
    simp only [nextEnvironmentName, hlast, if_neg hlen]
    rw [hcast, List.get?_eq_get hne]
    rfl

/-- Witness for C7: cycling from `Prod` (position 2 of 3) in the default
collection wraps to `Local`, and an unrecognized value lands on `Local`. -/
theorem C7_cycle_next_witness :
    nextEnvironmentName (parseEnvironmentProps defaultEnvironmentsContent) "Prod" =
      some "Local" ∧
    nextEnvironmentName (parseEnvironmentProps defaultEnvironmentsContent) "Nope" =
      some "Local" := by
  have h1 := (C7_cycle_next (parseEnvironmentProps defaultEnvironmentsContent) "Prod"
    (by decide)).2.2 (by decide)
  have h2 := (C7_cycle_next (parseEnvironmentProps defaultEnvironmentsContent) "Nope"
    (by decide)).2.1 (by decide)
  exact ⟨h1, h2⟩

/-! ## Claim C6 -/

/-- C6: for a display name found at position `p` in a collection with
`totalCount = n` (with `p < n`), the color and icon are the SAFE pair
(green, desktop) iff `n = 1` or `p = 0`, the CRITICAL pair (red, rocket)
iff `n ≥ 2` and `p = n - 1`, and the CAUTION pair (orange, beaker)
otherwise; consequently for `n ≤ 2` no position yields CAUTION and for
`n ≥ 3` every position strictly between `0` and `n - 1` yields CAUTION. -/
theorem C6_metadata_tiers (coll : EnvironmentCollection) (d : String)
    (env : EnvironmentConfig) (hfind : findEnv coll d = some env)
    (hp : env.position < coll.totalCount) :
    ((getEnvironmentColor coll d = "#4caf50" ∧
      getEnvironmentIcon coll d = "$(desktop-download)") ↔
      (coll.totalCount = 1 ∨ env.position = 0)) ∧
    ((getEnvironmentColor coll d = "#f44336" ∧
      getEnvironmentIcon coll d = "$(rocket)") ↔
      (2 ≤ coll.totalCount ∧ env.position = coll.totalCount - 1)) ∧
    ((getEnvironmentColor coll d = "#ff9800" ∧
      getEnvironmentIcon coll d = "$(beaker)") ↔
      (¬(coll.totalCount = 1 ∨ env.position = 0) ∧
       ¬(2 ≤ coll.totalCount ∧ env.position = coll.totalCount - 1))) ∧
    (coll.totalCount ≤ 2 → getEnvironmentColor coll d ≠ "#ff9800") ∧
    (3 ≤ coll.totalCount → 0 < env.position → env.position < coll.totalCount - 1 →
      getEnvironmentColor coll d = "#ff9800" ∧
      getEnvironmentIcon coll d = "$(beaker)") := by
  have e1 : ("#4caf50" : String) ≠ "#f44336" := by decide
  have e2 : ("#4caf50" : String) ≠ "#ff9800" := by decide
  have e3 : ("#f44336" : String) ≠ "#ff9800" := by decide
  have f1 : ("$(desktop-download)" : String) ≠ "$(rocket)" := by decide
  have f2 : ("$(desktop-download)" : String) ≠ "$(beaker)" := by decide
  have f3 : ("$(rocket)" : String) ≠ "$(beaker)" := by decide
  simp only [getEnvironmentColor, getEnvironmentIcon, hfind]
  split_ifs with h1 h2 h3 <;> refine ⟨?_, ?_, ?_, ?_, ?_⟩ <;> simp_all <;> omega

/-- Witness for C6: `Dev` sits at position 1 of 3 in the default
collection, a middle position, so its tier is CAUTION (orange, beaker). -/
theorem C6_metadata_tiers_witness :
    getEnvironmentColor (parseEnvironmentProps defaultEnvironmentsContent) "Dev" =
      "#ff9800" ∧
    getEnvironmentIcon (parseEnvironmentProps defaultEnvironmentsContent) "Dev" =
      "$(beaker)" := by
  have h := C6_metadata_tiers (parseEnvironmentProps defaultEnvironmentsContent) "Dev"
    { displayName := "Dev", configFileName := "mcp-dev.json", position := 1 }
    (by decide) (by decide)
  exact h.2.2.2.2 (by decide) (by decide) (by decide)

/-! ## Parser structure lemmas -/

theorem parse_environments_eq (s : String) :
    (parseEnvironmentProps s).environments = envsFrom 0 (candidateLines s) := rfl

theorem parse_totalCount_eq (s : String) :
    (parseEnvironmentProps s).totalCount = (envsFrom 0 (candidateLines s)).length := rfl

theorem envsFrom_nil (k : Nat) : envsFrom k [] = [] := rfl

theorem envsFrom_cons (k : Nat) (l : List Char) (ls : List (List Char)) :
    envsFrom k (l :: ls) =
      match parseLineData l with
      | some d => { displayName := d.1, configFileName := d.2, position := k } ::
          envsFrom (k + 1) ls
      | none => envsFrom (k + 1) ls := by
  have h : List.enumFrom k (l :: ls) = (k, l) :: List.enumFrom (k + 1) ls := rfl
  unfold envsFrom
  rw [h, List.filterMap_cons]
  cases hd : parseLineData l <;> simp [hd]

theorem envsFrom_position_ge (ls : List (List Char)) :
    ∀ k, ∀ e ∈ envsFrom k ls, k ≤ e.position := by
  induction ls with
  | nil => intro k e he; rw [envsFrom_nil] at he; cases he
  | cons l rest ih =>
    intro k e he
    rw [envsFrom_cons] at he
    cases hd : parseLineData l with
    | none =>
      rw [hd] at he
      exact le_trans (Nat.le_succ k) (ih (k + 1) e he)
    | some d =>
      rw [hd] at he
      rcases List.mem_cons.mp he with rfl | h2
      · simp
      · exact le_trans (Nat.le_succ k) (ih (k + 1) e h2)

theorem envsFrom_pairwise (ls : List (List Char)) :
    ∀ k, (envsFrom k ls).Pairwise (fun a b => a.position < b.position) := by
  induction ls with
  | nil => intro k; rw [envsFrom_nil]; exact List.Pairwise.nil
  | cons l rest ih =>
    intro k
    rw [envsFrom_cons]
    cases hd : parseLineData l with
    | none => exact ih (k + 1)
    | some d =>
      refine List.Pairwise.cons ?_ (ih (k + 1))
      intro b hb
      have := envsFrom_position_ge rest (k + 1) b hb
      simp only
      omega

theorem envsFrom_all_some (ls : List (List Char)) :
    ∀ k, (∀ l ∈ ls, (parseLineData l).isSome) →
      (envsFrom k ls).map (fun e => e.position) = List.range' k ls.length := by
  induction ls with
  | nil => intro k _; rw [envsFrom_nil]; rfl
  | cons l rest ih =>
    intro k h
    rw [envsFrom_cons]
    cases hd : parseLineData l with
    | none => exact absurd (h l (List.mem_cons_self l rest)) (by simp [hd])
    | some d =>
      simp only [List.map_cons]
      rw [ih (k + 1) (fun x hx => h x (List.mem_cons_of_mem l hx))]
      rw [List.length_cons, List.range'_succ]

theorem mem_envsFrom {e : EnvironmentConfig} {k : Nat} {ls : List (List Char)}
    (he : e ∈ envsFrom k ls) :
    ∃ l ∈ ls, parseLineData l = some (e.displayName, e.configFileName) := by
  obtain ⟨p, hp, hpe⟩ := List.mem_filterMap.mp he
  cases hd : parseLineData p.2 with
  | none => rw [hd] at hpe; cases hpe
  | some d =>
    rw [hd] at hpe
    have he2 : ({ displayName := d.1, configFileName := d.2, position := p.1 } :
        EnvironmentConfig) = e := Option.some.inj hpe
    refine ⟨p.2, List.snd_mem_of_mem_enumFrom hp, ?_⟩
    rw [hd, ← he2]

/-! ## Claim C2 -/

/-- C2 counterexample: in `"x\nA:b"` the first candidate line is malformed
(no colon) and is dropped, yet it consumes the `forEach` index, so the
single accepted descriptor carries position 1 in a collection of
totalCount 1 — the positions are not `0..totalCount-1`. -/
theorem C2_counterexample_gapped_positions :
    (parseEnvironmentProps "x\nA:b").totalCount = 1 ∧
    (parseEnvironmentProps "x\nA:b").environments.map (fun e => e.position) = [1] ∧
    (parseEnvironmentProps "x\nA:b").environments.map (fun e => e.position) ≠
      List.range (parseEnvironmentProps "x\nA:b").totalCount := by
  refine ⟨by decide, by decide, by decide⟩

/-- C2 (amended): each descriptor's position is its 0-based index among
the *candidate* (non-blank, non-comment) lines rather than among the
accepted lines, so positions are strictly increasing in sequence order,
and whenever every candidate line is accepted (no candidate line is
dropped as malformed) they are exactly `0..totalCount-1`.  (Acceptance of
every candidate line is sufficient, not necessary: a dropped trailing
line leaves the earlier positions canonical.) -/
theorem C2_positions_candidate_indexed (content : String) :
    ((parseEnvironmentProps content).environments.Pairwise
      (fun a b => a.position < b.position)) ∧
    ((∀ l ∈ candidateLines content, (parseLineData l).isSome) →
      (parseEnvironmentProps content).environments.map (fun e => e.position) =
        List.range (parseEnvironmentProps content).totalCount) := by
  constructor
  · rw [parse_environments_eq]
    exact envsFrom_pairwise _ 0
  · intro h
    have hmap := envsFrom_all_some (candidateLines content) 0 h
    have hlen : (envsFrom 0 (candidateLines content)).length =
        (candidateLines content).length := by
      have := congrArg List.length hmap
      simpa using this
    rw [parse_environments_eq, parse_totalCount_eq, hmap, hlen,
      List.range_eq_range']

/-- Witness for C2 (amended) at a fully well-formed two-line input. -/
theorem C2_positions_witness :
    (parseEnvironmentProps "Local:mcp-local\nDev:mcp-dev").environments.map
      (fun e => e.position) =
      List.range (parseEnvironmentProps "Local:mcp-local\nDev:mcp-dev").totalCount :=
  (C2_positions_candidate_indexed "Local:mcp-local\nDev:mcp-dev").2 (by decide)

/-! ## Properties of parser-produced descriptors -/

theorem head?_append_left {x : List Char} (y : List Char) {c : Char}
    (h : x.head? = some c) : (x ++ y).head? = some c := by
  cases x with
  | nil => cases h
  | cons a t => simpa using h

theorem trimL_cons_of_head {c : Char} (t : List Char) (hc : isWS c = false) :
    ∃ r, trimL (c :: t) = c :: r := by
  have hd : List.dropWhile isWS (c :: t) = c :: t := by
    rw [List.dropWhile_cons, hc]
    simp
  have hrev : (c :: t).reverse = t.reverse ++ [c] := by simp
  unfold trimL
  rw [hd, hrev]
  by_cases he : (List.dropWhile isWS t.reverse).isEmpty
  · rw [List.dropWhile_append, if_pos he]
    have : List.dropWhile isWS [c] = [c] := by
      rw [show ([c] : List Char) = c :: [] from rfl, List.dropWhile_cons, hc]
      simp
    rw [this]
    exact ⟨[], rfl⟩
  · rw [List.dropWhile_append, if_neg he]
    rw [List.reverse_append]
    exact ⟨(List.dropWhile isWS t.reverse).reverse, rfl⟩

theorem parseLineData_props {l : List Char} {dn cf : String}
    (hl : trimL l = l) (hnl : '\n' ∉ l) (hkeep : keepLine l = true)
    (h : parseLineData l = some (dn, cf)) :
    dn.data ≠ [] ∧ cf.data ≠ [] ∧
    trimL dn.data = dn.data ∧ trimL cf.data = cf.data ∧
    ':' ∉ dn.data ∧ '\n' ∉ dn.data ∧ '\n' ∉ cf.data ∧
    dn.data.head? ≠ some '#' ∧ jsonExt <:+ cf.data := by
  obtain ⟨hne, hhash⟩ : l ≠ [] ∧ ¬ l.head? = some '#' := by
    unfold keepLine at hkeep
    constructor
    · intro hnil
      rw [hnil] at hkeep
      simp at hkeep
    · intro hh
      rw [hh] at hkeep
      simp at hkeep
  unfold parseLineData at h
  cases hs : splitAtFirstColon l with
  | none => rw [hs] at h; cases h
  | some ab =>
    rw [hs] at h
    simp only at h
    obtain ⟨hsplit, hna⟩ := splitAtFirstColon_spec (a := ab.1) (b := ab.2) (by rw [hs])
    by_cases hg : (!(trimL ab.1).isEmpty && !(trimL ab.2).isEmpty) = true
    · rw [if_pos hg] at h
      obtain ⟨hdn, hcf⟩ := Prod.mk.inj (Option.some.inj h)
      obtain ⟨hdn1, hbase1⟩ : ¬ (trimL ab.1).isEmpty = true ∧ ¬ (trimL ab.2).isEmpty = true := by
        constructor <;> intro hh <;> rw [hh] at hg <;> simp at hg
      have hdnne : trimL ab.1 ≠ [] := by
        intro hh; exact hdn1 (by rw [hh]; rfl)
      have hbasene : trimL ab.2 ≠ [] := by
        intro hh; exact hbase1 (by rw [hh]; rfl)
      have hsubsetA : ∀ x, x ∈ ab.1 → x ∈ l := by
        intro x hx; rw [hsplit]; exact List.mem_append_left _ hx
      have hsubsetB : ∀ x, x ∈ ab.2 → x ∈ l := by
        intro x hx; rw [hsplit]; exact List.mem_append_right _ (List.mem_cons_of_mem _ hx)
      have hdn_data : dn.data = trimL ab.1 := by rw [← hdn]
      have hcf_data : cf.data =
          (if hasJsonSuffix (trimL ab.2) then trimL ab.2 else trimL ab.2 ++ jsonExt) := by
        rw [← hcf]
      refine ⟨?_, ?_, ?_, ?_, ?_, ?_, ?_, ?_, ?_⟩
      · rw [hdn_data]; exact hdnne
      · rw [hcf_data]
        by_cases hj : hasJsonSuffix (trimL ab.2)
        · rw [if_pos hj]; exact hbasene
        · rw [if_neg hj]
          intro hh
          exact hbasene (List.append_eq_nil.mp hh).1
      · rw [hdn_data]; exact trimL_idem ab.1
      · rw [hcf_data]
        by_cases hj : hasJsonSuffix (trimL ab.2)
        · rw [if_pos hj]; exact trimL_idem ab.2
        · rw [if_neg hj]
          apply trimL_eq_self_of_edges
          · intro c hc
            cases hb : (trimL ab.2).head? with
            | none =>
              rcases hbb : trimL ab.2 with _ | ⟨b0, bs⟩
              · exact absurd hbb hbasene
              · rw [hbb] at hb; cases hb
            | some b0 =>
              have : ((trimL ab.2) ++ jsonExt).head? = some b0 := head?_append_left _ hb
              rw [this] at hc
              obtain rfl := Option.some.inj hc
              exact trimL_head_not_ws (by rw [trimL_idem]; exact hb)
          · intro z hz
            have hj5 : (jsonExt : List Char) ≠ [] := by decide
            rw [List.getLast?_append_of_ne_nil _ hj5] at hz
            have : z = 'n' := by
              have hjson : (jsonExt : List Char).getLast? = some 'n' := by decide
              rw [hjson] at hz
              exact (Option.some.inj hz).symm
            rw [this]
            decide
      · rw [hdn_data]
        intro hx
        exact hna (mem_trimL hx)
      · rw [hdn_data]
        intro hx
        exact hnl (hsubsetA _ (mem_trimL hx))
      · rw [hcf_data]
        by_cases hj : hasJsonSuffix (trimL ab.2)
        · rw [if_pos hj]
          intro hx
          exact hnl (hsubsetB _ (mem_trimL hx))
        · rw [if_neg hj]
          intro hx
          rcases List.mem_append.mp hx with hx1 | hx2
          · exact hnl (hsubsetB _ (mem_trimL hx1))
          · exact absurd hx2 (by decide)
      · rw [hdn_data]
        rcases ha : ab.1 with _ | ⟨c, a'⟩
        · rw [ha] at hdnne; exact absurd rfl hdnne
        · have hlc : l = c :: (a' ++ ':' :: ab.2) := by
            rw [hsplit, ha]; rfl
          have hcws : isWS c = false := by
            apply trimFixed_head_not_ws hl
            rw [hlc]; rfl
          obtain ⟨r, hr⟩ := trimL_cons_of_head a' hcws
          rw [hr]
          intro hh
          apply hhash
          rw [hlc]
          simpa using hh
      · rw [hcf_data]
        by_cases hj : hasJsonSuffix (trimL ab.2)
        · rw [if_pos hj]
          exact (List.isSuffixOf_iff_suffix).mp hj
        · rw [if_neg hj]
          exact List.suffix_append _ _
    · rw [if_neg hg] at h
      cases h

theorem candidate_props {l : List Char} {s : String} (h : l ∈ candidateLines s) :
    trimL l = l ∧ '\n' ∉ l ∧ keepLine l = true := by
  obtain ⟨hmem, hkeep⟩ := List.mem_filter.mp h
  obtain ⟨piece, hpiece, hpl⟩ := List.mem_map.mp hmem
  have hfix : trimL l = l := by rw [← hpl]; exact trimL_idem piece
  have hnl : '\n' ∉ l := by
    intro hx
    exact mem_splitCh_not_sep hpiece (mem_trimL (by rw [hpl]; exact hx))
  exact ⟨hfix, hnl, hkeep⟩

/-- Every descriptor produced by `parseEnvironmentProps` satisfies the
structural invariants. -/
theorem parse_good (s : String) (e : EnvironmentConfig)
    (he : e ∈ (parseEnvironmentProps s).environments) : GoodEnv e := by
  rw [parse_environments_eq] at he
  obtain ⟨l, hl, hdata⟩ := mem_envsFrom he
  obtain ⟨hfix, hnl, hkeep⟩ := candidate_props hl
  exact parseLineData_props hfix hnl hkeep hdata

/-! ## Claim C10 -/

theorem countOcc_cons (pat : List Char) (c : Char) (rest : List Char) :
    countOcc pat (c :: rest) =
      (if pat.isPrefixOf (c :: rest) then 1 else 0) + countOcc pat rest := rfl

theorem replaceFirstL_cons (pat repl : List Char) (c : Char) (rest : List Char) :
    replaceFirstL pat repl (c :: rest) =
      if pat.isPrefixOf (c :: rest) then repl ++ (c :: rest).drop pat.length
      else c :: replaceFirstL pat repl rest := rfl

theorem countOcc_append_self_pos {pat : List Char} (hne : pat ≠ []) (x : List Char) :
    1 ≤ countOcc pat (x ++ pat) := by
  induction x with
  | nil =>
    cases pat with
    | nil => exact absurd rfl hne
    | cons c r =>
      rw [List.nil_append, countOcc_cons]
      have hpre : (c :: r).isPrefixOf (c :: r) = true :=
        List.isPrefixOf_iff_prefix.mpr (List.prefix_refl _)
      rw [hpre]
      simp
  | cons a t ih =>
    rw [List.cons_append, countOcc_cons]
    omega

theorem replaceFirstL_unique_suffix {pat : List Char} (hne : pat ≠ []) :
    ∀ x, countOcc pat (x ++ pat) = 1 → replaceFirstL pat [] (x ++ pat) = x := by
  intro x
  induction x with
  | nil =>
    intro _
    cases pat with
    | nil => exact absurd rfl hne
    | cons c r =>
      rw [List.nil_append, replaceFirstL_cons]
      have hpre : (c :: r).isPrefixOf (c :: r) = true :=
        List.isPrefixOf_iff_prefix.mpr (List.prefix_refl _)
      rw [hpre]
      simp
  | cons a t ih =>
    intro h
    rw [List.cons_append, countOcc_cons] at h
    have hpos := countOcc_append_self_pos hne t
    by_cases hp : pat.isPrefixOf (a :: (t ++ pat)) = true
    · rw [hp] at h
      simp at h
      omega
    · rw [List.cons_append, replaceFirstL_cons,
        if_neg (by intro hh; exact hp hh)]
      have htail : countOcc pat (t ++ pat) = 1 := by
        rw [if_neg (by intro hh; exact hp hh)] at h
        omega
      rw [ih htail]

/-- C10 counterexample: the claim says the round-trip holds *only* when
`.json` occurs exactly once in the stored name.  For `A:a.json.json` the
stored name `a.json.json` contains `.json` twice, yet removing the first
occurrence and re-appending `.json` reproduces the name, so
`getConfigFilePath` still resolves to the envs directory joined with
exactly the stored configFileName. -/
theorem C10_counterexample_double_json_roundtrips :
    findEnv (parseEnvironmentProps "A:a.json.json") "A" =
      some { displayName := "A", configFileName := "a.json.json", position := 0 } ∧
    countOcc jsonExt ("a.json.json" : String).data ≠ 1 ∧
    getConfigFilePath "h" (parseEnvironmentProps "A:a.json.json") "A" =
      some (pathJoin (envsDir "h") "a.json.json") := by
  refine ⟨by decide, by decide, by decide⟩

/-- C10 (amended): for every environment of a parsed collection whose
`configFileName` contains `.json` exactly once (necessarily as its
trailing suffix), `getConfigFilePath` resolves to the conventional envs
directory joined with exactly that `configFileName`.  The exactly-once
precondition is sufficient but not necessary: `getConfigFileBase` removes
the *first* occurrence of `.json` anywhere in the stored name, so the
round-trip holds exactly when re-appending `.json` after that removal
reproduces the name (e.g. it also holds for `a.json.json`). -/
theorem C10_config_path_roundtrip (home s d : String) (env : EnvironmentConfig)
    (hfind : findEnv (parseEnvironmentProps s) d = some env)
    (honce : countOcc jsonExt env.configFileName.data = 1) :
    getConfigFilePath home (parseEnvironmentProps s) d =
      some (pathJoin (envsDir home) env.configFileName) := by
  have hmem : env ∈ (parseEnvironmentProps s).environments :=
    List.mem_of_find?_eq_some hfind
  have hgood := parse_good s env hmem
  obtain ⟨x, hx⟩ : ∃ x, x ++ jsonExt = env.configFileName.data :=
    hgood.2.2.2.2.2.2.2.2
  have hrep : replaceFirstL jsonExt [] env.configFileName.data = x := by
    rw [← hx]
    exact replaceFirstL_unique_suffix (by decide) x (by rw [hx]; exact honce)
  have hstr : (⟨x⟩ : String) ++ ".json" = env.configFileName := by
    cases henv : env.configFileName with
    | mk dataL =>
      have : x ++ jsonExt = dataL := by rw [hx, henv]
      show String.mk (x ++ ".json".data) = String.mk dataL
      rw [this.symm]
      rfl
  simp only [getConfigFilePath, getConfigFileBase, hfind, Option.map_map, Option.map]
  rw [hrep, hstr]

/-- Witness for C10 (amended): the default collection's `Local` entry has
`mcp-local.json`, one `.json` occurrence, and resolves to the envs path of
exactly that file name. -/
theorem C10_config_path_witness :
    getConfigFilePath "h" (parseEnvironmentProps defaultEnvironmentsContent) "Local" =
      some (pathJoin (envsDir "h") "mcp-local.json") :=
  C10_config_path_roundtrip "h" defaultEnvironmentsContent "Local"
    { displayName := "Local", configFileName := "mcp-local.json", position := 0 }
    (by decide) (by decide)

/-! ## Claim C5 -/

theorem good_line_props {e : EnvironmentConfig} (hg : GoodEnv e) :
    trimL (lineOf e) = lineOf e ∧ keepLine (lineOf e) = true ∧
    parseLineData (lineOf e) = some (e.displayName, e.configFileName) ∧
    '\n' ∉ lineOf e := by
  obtain ⟨hdnne, hcfne, hdnfix, hcffix, hdncolon, hdnnl, hcfnl, hdnhash, hcfsuf⟩ := hg
  obtain ⟨c0, dn', hdn'⟩ : ∃ c0 dn', e.displayName.data = c0 :: dn' := by
    cases hd : e.displayName.data with
    | nil => exact absurd hd hdnne
    | cons c0 dn' => exact ⟨c0, dn', rfl⟩
  have hheadline : (lineOf e).head? = some c0 := by
    unfold lineOf
    rw [hdn']
    rfl
  have hc0 : isWS c0 = false :=
    trimFixed_head_not_ws hdnfix (by rw [hdn']; rfl)
  have hc0hash : c0 ≠ '#' := by
    intro hh
    exact hdnhash (by rw [hdn', hh]; rfl)
  have hlast : ∀ z, (lineOf e).getLast? = some z → isWS z = false := by
    intro z hz
    unfold lineOf at hz
    rw [List.getLast?_append_of_ne_nil _ (by simp)] at hz
    have h2 : (':' :: e.configFileName.data).getLast? = e.configFileName.data.getLast? := by
      rw [show (':' :: e.configFileName.data) = [':'] ++ e.configFileName.data from rfl]
      exact List.getLast?_append_of_ne_nil _ hcfne
    rw [h2] at hz
    exact trimFixed_getLast_not_ws hcffix hz
  have htrim : trimL (lineOf e) = lineOf e := by
    apply trimL_eq_self_of_edges
    · intro c hc
      rw [hheadline] at hc
      obtain rfl := Option.some.inj hc
      exact hc0
    · exact hlast
  have hkeep : keepLine (lineOf e) = true := by
    unfold keepLine
    have hne : (lineOf e).isEmpty = false := by
      unfold lineOf
      rw [hdn']
      rfl
    rw [hne, hheadline]
    simp [hc0hash]
  have hparse : parseLineData (lineOf e) = some (e.displayName, e.configFileName) := by
    unfold parseLineData lineOf
    rw [splitAtFirstColon_of_eq _ hdncolon]
    simp only [hdnfix, hcffix]
    have hsuf : hasJsonSuffix e.configFileName.data = true :=
      (List.isSuffixOf_iff_suffix).mpr hcfsuf
    rw [hsuf]
    have hg1 : e.displayName.data.isEmpty = false := by
      rw [hdn']; rfl
    have hg2 : e.configFileName.data.isEmpty = false := by
      cases hc : e.configFileName.data with
      | nil => exact absurd hc hcfne
      | cons x xs => rfl
    rw [hg1, hg2]
    rfl
  have hnl : '\n' ∉ lineOf e := by
    intro hx
    unfold lineOf at hx
    rcases List.mem_append.mp hx with h1 | h2
    · exact hdnnl h1
    · rcases List.mem_cons.mp h2 with h3 | h4
      · cases h3
      · exact hcfnl h4
  exact ⟨htrim, hkeep, hparse, hnl⟩

theorem splitCh_joinWith {lines : List (List Char)} (hne : lines ≠ [])
    (hfree : ∀ p ∈ lines, '\n' ∉ p) :
    splitCh '\n' (joinWith ['\n'] lines) = lines := by
  induction lines with
  | nil => exact absurd rfl hne
  | cons x rest ih =>
    cases rest with
    | nil =>
      exact splitCh_of_no_sep (hfree x (List.mem_cons_self x []))
    | cons y rest2 =>
      have hx : '\n' ∉ x := hfree x (List.mem_cons_self _ _)
      have hjoin : joinWith ['\n'] (x :: y :: rest2) =
          x ++ '\n' :: joinWith ['\n'] (y :: rest2) := by
        show x ++ ['\n'] ++ joinWith ['\n'] (y :: rest2) = _
        rw [List.append_assoc]
        rfl
      rw [hjoin, splitCh_append_sep _ hx]
      rw [ih (by simp) (fun p hp => hfree p (List.mem_cons_of_mem x hp))]

theorem candidateLines_serialize {es : List EnvironmentConfig}
    (hg : ∀ e ∈ es, GoodEnv e) :
    candidateLines ⟨joinWith ['\n'] (es.map lineOf)⟩ = es.map lineOf := by
  cases hes : es with
  | nil => rfl
  | cons e0 rest =>
    rw [← hes]
    have hlines_ne : es.map lineOf ≠ [] := by rw [hes]; simp
    have hfree : ∀ p ∈ es.map lineOf, '\n' ∉ p := by
      intro p hp
      obtain ⟨e, he, rfl⟩ := List.mem_map.mp hp
      exact (good_line_props (hg e he)).2.2.2
    unfold candidateLines
    rw [show (⟨joinWith ['\n'] (es.map lineOf)⟩ : String).data =
      joinWith ['\n'] (es.map lineOf) from rfl]
    rw [splitCh_joinWith hlines_ne hfree]
    have hmap : (es.map lineOf).map trimL = es.map lineOf := by
      rw [List.map_map]
      exact List.map_congr_left (fun e he => (good_line_props (hg e he)).1)
    rw [hmap]
    apply List.filter_eq_self.mpr
    intro p hp
    obtain ⟨e, he, rfl⟩ := List.mem_map.mp hp
    exact (good_line_props (hg e he)).2.1

theorem envsFrom_serialize (es : List EnvironmentConfig) :
    ∀ k, (∀ e ∈ es, GoodEnv e) →
      envsFrom k (es.map lineOf) =
        (List.enumFrom k es).map
          (fun p => { displayName := p.2.displayName,
                      configFileName := p.2.configFileName, position := p.1 }) := by
  induction es with
  | nil => intro k _; rfl
  | cons e rest ih =>
    intro k hg
    rw [List.map_cons, envsFrom_cons,
      (good_line_props (hg e (List.mem_cons_self e rest))).2.2.1]
    rw [show List.enumFrom k (e :: rest) = (k, e) :: List.enumFrom (k + 1) rest from rfl,
      List.map_cons]
    rw [ih (k + 1) (fun x hx => hg x (List.mem_cons_of_mem e hx))]

theorem enum_renumber (es : List EnvironmentConfig) :
    ∀ k, es.map (fun e => e.position) = List.range' k es.length →
      (List.enumFrom k es).map
        (fun p => { displayName := p.2.displayName,
                    configFileName := p.2.configFileName, position := p.1 }) = es := by
  induction es with
  | nil => intro k _; rfl
  | cons e rest ih =>
    intro k h
    rw [List.length_cons, List.range'_succ, List.map_cons] at h
    have h1 : e.position = k := (List.cons.inj h).1
    have h2 : rest.map (fun e => e.position) = List.range' (k + 1) rest.length :=
      (List.cons.inj h).2
    rw [show List.enumFrom k (e :: rest) = (k, e) :: List.enumFrom (k + 1) rest from rfl,
      List.map_cons, ih (k + 1) h2, ← h1]

/-- C5 counterexample: `"x\nA:b"` parses to a collection whose single
descriptor carries position 1 (the malformed first candidate line consumed
index 0); re-parsing its canonical serialization `"A:b.json"` renumbers
the descriptor to position 0, so the round-trip does not reproduce an
equal collection. -/
theorem C5_counterexample_reparse_renumbers :
    parseEnvironmentProps (serializeCollection (parseEnvironmentProps "x\nA:b")) ≠
      parseEnvironmentProps "x\nA:b" ∧
    serializeCollection (parseEnvironmentProps "x\nA:b") = "A:b.json" ∧
    (parseEnvironmentProps (serializeCollection
        (parseEnvironmentProps "x\nA:b"))).environments.map (fun e => e.position) = [0] ∧
    (parseEnvironmentProps "x\nA:b").environments.map (fun e => e.position) = [1] := by
  refine ⟨by decide, by decide, by decide, by decide⟩

/-- C5 (amended): parsing the canonical re-serialization of a parsed
collection reproduces the display names and config file names in order
and renumbers positions to `0..n-1`; it reproduces an *equal* collection
precisely under the additional hypothesis that the original collection's
positions already are exactly `0..totalCount-1` (no candidate line of the
original text was dropped). -/
theorem C5_reparse_of_canonical (s : String)
    (h : (parseEnvironmentProps s).environments.map (fun e => e.position) =
      List.range (parseEnvironmentProps s).totalCount) :
    parseEnvironmentProps (serializeCollection (parseEnvironmentProps s)) =
      parseEnvironmentProps s := by
  have hg : ∀ e ∈ (parseEnvironmentProps s).environments, GoodEnv e :=
    fun e he => parse_good s e he
  have hlen : (parseEnvironmentProps s).totalCount =
      (parseEnvironmentProps s).environments.length := rfl
  have henv : (parseEnvironmentProps (serializeCollection (parseEnvironmentProps s))).environments
      = (parseEnvironmentProps s).environments := by
    rw [parse_environments_eq]
    rw [show serializeCollection (parseEnvironmentProps s) =
      ⟨joinWith ['\n'] ((parseEnvironmentProps s).environments.map lineOf)⟩ from rfl]
    rw [candidateLines_serialize hg]
    rw [envsFrom_serialize _ 0 hg]
    apply enum_renumber
    rw [← List.range_eq_range', ← hlen]
    exact h
  have htot : (parseEnvironmentProps (serializeCollection (parseEnvironmentProps s))).totalCount
      = (parseEnvironmentProps s).totalCount := by
    rw [show (parseEnvironmentProps (serializeCollection (parseEnvironmentProps s))).totalCount
      = (parseEnvironmentProps (serializeCollection
          (parseEnvironmentProps s))).environments.length from rfl]
    rw [henv, ← hlen]
  cases hc1 : parseEnvironmentProps (serializeCollection (parseEnvironmentProps s)) with
  | mk env1 tot1 =>
    cases hc2 : parseEnvironmentProps s with
    | mk env2 tot2 =>
      rw [hc1, hc2] at henv htot
      simp at henv htot
      simp [henv, htot]

/-- Witness for C5 (amended): a fully well-formed two-line properties text
round-trips to an equal collection. -/
theorem C5_reparse_witness :
    parseEnvironmentProps (serializeCollection
        (parseEnvironmentProps "Local:mcp-local\nDev:mcp-dev")) =
      parseEnvironmentProps "Local:mcp-local\nDev:mcp-dev" :=
  C5_reparse_of_canonical "Local:mcp-local\nDev:mcp-dev" (by decide)

/-! ## Claim C8 -/

theorem contains_iff_mem_strings (l : List String) (a : String) :
    l.contains a = true ↔ a ∈ l := by
  unfold List.contains
  exact List.elem_iff

theorem vStepName_errors_mono {msg : String} {st : VState} {n : Nat} {dn : String}
    (h : msg ∈ st.errors) : msg ∈ (vStepName n dn st).errors := by
  unfold vStepName
  split_ifs <;> first | exact List.mem_append_left _ h | exact h

theorem vStepName_names_mono {x : String} {st : VState} {n : Nat} {dn : String}
    (h : x ∈ st.displayNames) : x ∈ (vStepName n dn st).displayNames := by
  unfold vStepName
  split_ifs <;> first | exact List.mem_append_left _ h | exact h

theorem vStepName_files_eq (n : Nat) (dn : String) (st : VState) :
    (vStepName n dn st).configFiles = st.configFiles := by
  unfold vStepName
  split_ifs <;> rfl

theorem vStepName_adds {st : VState} {n : Nat} {dn : String}
    (h : dn.data.isEmpty = false) : dn ∈ (vStepName n dn st).displayNames := by
  unfold vStepName
  rw [if_neg (by rw [h]; simp)]
  by_cases hc : st.displayNames.contains dn = true
  · rw [if_pos hc]
    exact (contains_iff_mem_strings _ _).mp hc
  · rw [if_neg hc]
    exact List.mem_append_right _ (List.mem_singleton.mpr rfl)

theorem vStepName_dup {st : VState} {n : Nat} {dn : String}
    (hne : dn.data.isEmpty = false) (hc : st.displayNames.contains dn = true) :
    ("Line " ++ Nat.repr n ++ ": Duplicate display name " ++ sq dn) ∈
      (vStepName n dn st).errors := by
  unfold vStepName
  rw [if_neg (by rw [hne]; simp), if_pos hc]
  exact List.mem_append_right _ (List.mem_singleton.mpr rfl)

theorem vStepFile_errors_mono {msg : String} {st : VState} {n : Nat} {b cf : String}
    (h : msg ∈ st.errors) : msg ∈ (vStepFile n b cf st).errors := by
  unfold vStepFile
  split_ifs <;> first | exact List.mem_append_left _ h | exact h

theorem vStepFile_names_eq (n : Nat) (b cf : String) (st : VState) :
    (vStepFile n b cf st).displayNames = st.displayNames := by
  unfold vStepFile
  split_ifs <;> rfl

theorem vStepFile_files_mono {x : String} {st : VState} {n : Nat} {b cf : String}
    (h : x ∈ st.configFiles) : x ∈ (vStepFile n b cf st).configFiles := by
  unfold vStepFile
  split_ifs <;> first | exact List.mem_append_left _ h | exact h

theorem vStepFile_adds {st : VState} {n : Nat} {b cf : String}
    (h : b.data.isEmpty = false) : cf ∈ (vStepFile n b cf st).configFiles := by
  unfold vStepFile
  rw [if_neg (by rw [h]; simp)]
  by_cases hc : st.configFiles.contains cf = true
  · rw [if_pos hc]
    exact (contains_iff_mem_strings _ _).mp hc
  · rw [if_neg hc]
    exact List.mem_append_right _ (List.mem_singleton.mpr rfl)

theorem vStepFile_dup {st : VState} {n : Nat} {b cf : String}
    (hne : b.data.isEmpty = false) (hc : st.configFiles.contains cf = true) :
    ("Line " ++ Nat.repr n ++ ": Duplicate config file " ++ sq cf) ∈
      (vStepFile n b cf st).errors := by
  unfold vStepFile
  rw [if_neg (by rw [hne]; simp), if_pos hc]
  exact List.mem_append_right _ (List.mem_singleton.mpr rfl)

theorem vStepLong_core (n : Nat) (dn : String) (st : VState) :
    (vStepLong n dn st).errors = st.errors ∧
    (vStepLong n dn st).displayNames = st.displayNames ∧
    (vStepLong n dn st).configFiles = st.configFiles := by
  unfold vStepLong
  split_ifs <;> exact ⟨rfl, rfl, rfl⟩

theorem vStepChars_core (n : Nat) (cf : String) (st : VState) :
    (vStepChars n cf st).errors = st.errors ∧
    (vStepChars n cf st).displayNames = st.displayNames ∧
    (vStepChars n cf st).configFiles = st.configFiles := by
  unfold vStepChars
  split_ifs <;> exact ⟨rfl, rfl, rfl⟩

theorem processValidationLine_some {l : List Char} {ab : List Char × List Char}
    (hs : splitAtFirstColon l = some ab) (k : Nat) (st : VState) :
    processValidationLine k l st =
      vStepChars (k + 1) (cfOf ab)
        (vStepLong (k + 1) ⟨trimL ab.1⟩
          (vStepFile (k + 1) ⟨trimL ab.2⟩ (cfOf ab)
            (vStepName (k + 1) ⟨trimL ab.1⟩ st))) := by
  unfold processValidationLine
  rw [hs]
  rfl

theorem pv_errors_mono {msg : String} {st : VState} {k : Nat} {l : List Char}
    (h : msg ∈ st.errors) : msg ∈ (processValidationLine k l st).errors := by
  cases hs : splitAtFirstColon l with
  | none =>
    unfold processValidationLine
    rw [hs]
    exact List.mem_append_left _ h
  | some ab =>
    rw [processValidationLine_some hs]
    rw [(vStepChars_core _ _ _).1, (vStepLong_core _ _ _).1]
    exact vStepFile_errors_mono (vStepName_errors_mono h)

theorem pv_names_mono {x : String} {st : VState} {k : Nat} {l : List Char}
    (h : x ∈ st.displayNames) : x ∈ (processValidationLine k l st).displayNames := by
  cases hs : splitAtFirstColon l with
  | none =>
    unfold processValidationLine
    rw [hs]
    exact h
  | some ab =>
    rw [processValidationLine_some hs]
    rw [(vStepChars_core _ _ _).2.1, (vStepLong_core _ _ _).2.1, vStepFile_names_eq]
    exact vStepName_names_mono h

theorem pv_files_mono {x : String} {st : VState} {k : Nat} {l : List Char}
    (h : x ∈ st.configFiles) : x ∈ (processValidationLine k l st).configFiles := by
  cases hs : splitAtFirstColon l with
  | none =>
    unfold processValidationLine
    rw [hs]
    exact h
  | some ab =>
    rw [processValidationLine_some hs]
    rw [(vStepChars_core _ _ _).2.2, (vStepLong_core _ _ _).2.2]
    apply vStepFile_files_mono
    rw [vStepName_files_eq]
    exact h

theorem pv_adds_name {st : VState} {k : Nat} {l : List Char} {dn : String}
    (h : extractName l = some dn) :
    dn ∈ (processValidationLine k l st).displayNames := by
  unfold extractName at h
  cases hs : splitAtFirstColon l with
  | none => rw [hs] at h; cases h
  | some ab =>
    rw [hs] at h
    simp only at h
    by_cases he : (trimL ab.1).isEmpty = true
    · rw [if_pos he] at h; cases h
    · rw [if_neg he] at h
      obtain rfl := Option.some.inj h
      rw [processValidationLine_some hs]
      rw [(vStepChars_core _ _ _).2.1, (vStepLong_core _ _ _).2.1, vStepFile_names_eq]
      exact vStepName_adds (by simpa using he)

theorem pv_adds_file {st : VState} {k : Nat} {l : List Char} {cf : String}
    (h : extractFile l = some cf) :
    cf ∈ (processValidationLine k l st).configFiles := by
  unfold extractFile at h
  cases hs : splitAtFirstColon l with
  | none => rw [hs] at h; cases h
  | some ab =>
    rw [hs] at h
    simp only at h
    by_cases he : (trimL ab.2).isEmpty = true
    · rw [if_pos he] at h; cases h
    · rw [if_neg he] at h
      obtain rfl : cfOf ab = cf := by
        unfold cfOf
        exact Option.some.inj h
      rw [processValidationLine_some hs]
      rw [(vStepChars_core _ _ _).2.2, (vStepLong_core _ _ _).2.2]
      exact vStepFile_adds (by simpa using he)

theorem dup_name_msg_mentions (n : Nat) (dn : String) :
    mentionsDupName dn ("Line " ++ Nat.repr n ++ ": Duplicate display name " ++ sq dn) := by
  constructor
  · refine ⟨("Line " ++ Nat.repr n ++ ": ").data, ' ' :: (sq dn).data, ?_⟩
    simp only [String.data_append, List.append_assoc]
    simp [List.cons_append, List.append_assoc]
  · refine ⟨("Line " ++ Nat.repr n ++ ": Duplicate display name ").data, [], ?_⟩
    simp [String.data_append, List.append_assoc]

theorem dup_file_msg_mentions (n : Nat) (cf : String) :
    mentionsDupFile cf ("Line " ++ Nat.repr n ++ ": Duplicate config file " ++ sq cf) := by
  constructor
  · refine ⟨("Line " ++ Nat.repr n ++ ": ").data, ' ' :: (sq cf).data, ?_⟩
    simp only [String.data_append, List.append_assoc]
    simp [List.cons_append, List.append_assoc]
  · refine ⟨("Line " ++ Nat.repr n ++ ": Duplicate config file ").data, [], ?_⟩
    simp [String.data_append, List.append_assoc]

theorem pv_dup_name {st : VState} {k : Nat} {l : List Char} {dn : String}
    (h : extractName l = some dn) (hc : st.displayNames.contains dn = true) :
    ∃ msg ∈ (processValidationLine k l st).errors, mentionsDupName dn msg := by
  unfold extractName at h
  cases hs : splitAtFirstColon l with
  | none => rw [hs] at h; cases h
  | some ab =>
    rw [hs] at h
    simp only at h
    by_cases he : (trimL ab.1).isEmpty = true
    · rw [if_pos he] at h; cases h
    · rw [if_neg he] at h
      obtain rfl := Option.some.inj h
      refine ⟨"Line " ++ Nat.repr (k + 1) ++ ": Duplicate display name " ++
        sq ⟨trimL ab.1⟩, ?_, dup_name_msg_mentions (k + 1) _⟩
      rw [processValidationLine_some hs]
      rw [(vStepChars_core _ _ _).1, (vStepLong_core _ _ _).1]
      exact vStepFile_errors_mono (vStepName_dup (by simpa using he) hc)

theorem pv_dup_file {st : VState} {k : Nat} {l : List Char} {cf : String}
    (h : extractFile l = some cf) (hc : st.configFiles.contains cf = true) :
    ∃ msg ∈ (processValidationLine k l st).errors, mentionsDupFile cf msg := by
  unfold extractFile at h
  cases hs : splitAtFirstColon l with
  | none => rw [hs] at h; cases h
  | some ab =>
    rw [hs] at h
    simp only at h
    by_cases he : (trimL ab.2).isEmpty = true
    · rw [if_pos he] at h; cases h
    · rw [if_neg he] at h
      obtain rfl : cfOf ab = cf := by
        unfold cfOf
        exact Option.some.inj h
      refine ⟨"Line " ++ Nat.repr (k + 1) ++ ": Duplicate config file " ++
        sq (cfOf ab), ?_, dup_file_msg_mentions (k + 1) _⟩
      rw [processValidationLine_some hs]
      rw [(vStepChars_core _ _ _).1, (vStepLong_core _ _ _).1]
      exact vStepFile_dup (by simpa using he)
        (by rw [vStepName_files_eq]; exact hc)

theorem vLoop_errors_mono (ls : List (List Char)) :
    ∀ (k : Nat) (st : VState) {msg : String}, msg ∈ st.errors →
      msg ∈ (vLoop k st ls).errors := by
  induction ls with
  | nil => intro k st msg h; exact h
  | cons l rest ih =>
    intro k st msg h
    exact ih (k + 1) _ (pv_errors_mono h)

theorem vLoop_dup_name (ls : List (List Char)) :
    ∀ (k : Nat) (st : VState) (dn : String), dn ∈ st.displayNames →
      (∃ l ∈ ls, extractName l = some dn) →
      ∃ msg ∈ (vLoop k st ls).errors, mentionsDupName dn msg := by
  induction ls with
  | nil =>
    intro k st dn _ hw
    obtain ⟨l, hl, _⟩ := hw
    cases hl
  | cons l rest ih =>
    intro k st dn hmem hw
    obtain ⟨l0, hl0, hex⟩ := hw
    rcases List.mem_cons.mp hl0 with rfl | hrest
    · obtain ⟨msg, hmsg, hment⟩ :=
        @pv_dup_name st k _ _ hex ((contains_iff_mem_strings _ _).mpr hmem)
      exact ⟨msg, vLoop_errors_mono rest (k + 1) _ hmsg, hment⟩
    · exact ih (k + 1) _ dn (pv_names_mono hmem) ⟨l0, hrest, hex⟩

theorem vLoop_dup_file (ls : List (List Char)) :
    ∀ (k : Nat) (st : VState) (cf : String), cf ∈ st.configFiles →
      (∃ l ∈ ls, extractFile l = some cf) →
      ∃ msg ∈ (vLoop k st ls).errors, mentionsDupFile cf msg := by
  induction ls with
  | nil =>
    intro k st cf _ hw
    obtain ⟨l, hl, _⟩ := hw
    cases hl
  | cons l rest ih =>
    intro k st cf hmem hw
    obtain ⟨l0, hl0, hex⟩ := hw
    rcases List.mem_cons.mp hl0 with rfl | hrest
    · obtain ⟨msg, hmsg, hment⟩ :=
        @pv_dup_file st k _ _ hex ((contains_iff_mem_strings _ _).mpr hmem)
      exact ⟨msg, vLoop_errors_mono rest (k + 1) _ hmsg, hment⟩
    · exact ih (k + 1) _ cf (pv_files_mono hmem) ⟨l0, hrest, hex⟩

theorem vLoop_two_name (ls : List (List Char)) :
    ∀ (k : Nat) (st : VState) (i j : Nat) (dn : String), i < j →
      (∃ li, ls.get? i = some li ∧ extractName li = some dn) →
      (∃ lj, ls.get? j = some lj ∧ extractName lj = some dn) →
      ∃ msg ∈ (vLoop k st ls).errors, mentionsDupName dn msg := by
  induction ls with
  | nil =>
    intro k st i j dn _ hi _
    obtain ⟨li, hli, _⟩ := hi
    cases hli
  | cons l rest ih =>
    intro k st i j dn hij hi hj
    cases i with
    | zero =>
      obtain ⟨li, hli, hex⟩ := hi
      obtain rfl : l = li := Option.some.inj hli
      cases j with
      | zero => omega
      | succ j2 =>
        obtain ⟨lj, hlj, hexj⟩ := hj
        exact vLoop_dup_name rest (k + 1) _ dn (pv_adds_name hex)
          ⟨lj, List.get?_mem hlj, hexj⟩
    | succ i2 =>
      cases j with
      | zero => omega
      | succ j2 =>
        obtain ⟨li, hli, hexi⟩ := hi
        obtain ⟨lj, hlj, hexj⟩ := hj
        exact ih (k + 1) _ i2 j2 dn (by omega) ⟨li, hli, hexi⟩ ⟨lj, hlj, hexj⟩

theorem vLoop_two_file (ls : List (List Char)) :
    ∀ (k : Nat) (st : VState) (i j : Nat) (cf : String), i < j →
      (∃ li, ls.get? i = some li ∧ extractFile li = some cf) →
      (∃ lj, ls.get? j = some lj ∧ extractFile lj = some cf) →
      ∃ msg ∈ (vLoop k st ls).errors, mentionsDupFile cf msg := by
  induction ls with
  | nil =>
    intro k st i j cf _ hi _
    obtain ⟨li, hli, _⟩ := hi
    cases hli
  | cons l rest ih =>
    intro k st i j cf hij hi hj
    cases i with
    | zero =>
      obtain ⟨li, hli, hex⟩ := hi
      obtain rfl : l = li := Option.some.inj hli
      cases j with
      | zero => omega
      | succ j2 =>
        obtain ⟨lj, hlj, hexj⟩ := hj
        exact vLoop_dup_file rest (k + 1) _ cf (pv_adds_file hex)
          ⟨lj, List.get?_mem hlj, hexj⟩
    | succ i2 =>
      cases j with
      | zero => omega
      | succ j2 =>
        obtain ⟨li, hli, hexi⟩ := hi
        obtain ⟨lj, hlj, hexj⟩ := hj
        exact ih (k + 1) _ i2 j2 cf (by omega) ⟨li, hli, hexi⟩ ⟨lj, hlj, hexj⟩

theorem cStepName_errors_mono {msg : String} {st : VState} {dn : String}
    (h : msg ∈ st.errors) : msg ∈ (cStepName dn st).errors := by
  unfold cStepName
  split_ifs <;> first | exact List.mem_append_left _ h | exact h

theorem cStepName_names_mono {x : String} {st : VState} {dn : String}
    (h : x ∈ st.displayNames) : x ∈ (cStepName dn st).displayNames := by
  unfold cStepName
  split_ifs <;> first | exact List.mem_append_left _ h | exact h

theorem cStepName_files_eq (dn : String) (st : VState) :
    (cStepName dn st).configFiles = st.configFiles := by
  unfold cStepName
  split_ifs <;> rfl

theorem cStepName_adds (dn : String) (st : VState) :
    dn ∈ (cStepName dn st).displayNames := by
  unfold cStepName
  by_cases hc : st.displayNames.contains dn = true
  · rw [if_pos hc]
    exact (contains_iff_mem_strings _ _).mp hc
  · rw [if_neg hc]
    exact List.mem_append_right _ (List.mem_singleton.mpr rfl)

theorem cStepName_dup {st : VState} {dn : String}
    (hc : st.displayNames.contains dn = true) :
    ("Duplicate display name: " ++ sq dn) ∈ (cStepName dn st).errors := by
  unfold cStepName
  rw [if_pos hc]
  exact List.mem_append_right _ (List.mem_singleton.mpr rfl)

theorem cStepFile_errors_mono {msg : String} {st : VState} {cf : String}
    (h : msg ∈ st.errors) : msg ∈ (cStepFile cf st).errors := by
  unfold cStepFile
  split_ifs <;> first | exact List.mem_append_left _ h | exact h

theorem cStepFile_names_eq (cf : String) (st : VState) :
    (cStepFile cf st).displayNames = st.displayNames := by
  unfold cStepFile
  split_ifs <;> rfl

theorem cStepFile_files_mono {x : String} {st : VState} {cf : String}
    (h : x ∈ st.configFiles) : x ∈ (cStepFile cf st).configFiles := by
  unfold cStepFile
  split_ifs <;> first | exact List.mem_append_left _ h | exact h

theorem cStepFile_adds (cf : String) (st : VState) :
    cf ∈ (cStepFile cf st).configFiles := by
  unfold cStepFile
  by_cases hc : st.configFiles.contains cf = true
  · rw [if_pos hc]
    exact (contains_iff_mem_strings _ _).mp hc
  · rw [if_neg hc]
    exact List.mem_append_right _ (List.mem_singleton.mpr rfl)

theorem cStepFile_dup {st : VState} {cf : String}
    (hc : st.configFiles.contains cf = true) :
    ("Duplicate config file: " ++ sq cf) ∈ (cStepFile cf st).errors := by
  unfold cStepFile
  rw [if_pos hc]
  exact List.mem_append_right _ (List.mem_singleton.mpr rfl)

theorem cStepExists_core (home : String) (fx : String → Bool) (cf : String) (st : VState) :
    (cStepExists home fx cf st).errors = st.errors ∧
    (cStepExists home fx cf st).displayNames = st.displayNames ∧
    (cStepExists home fx cf st).configFiles = st.configFiles := by
  unfold cStepExists
  split_ifs <;> exact ⟨rfl, rfl, rfl⟩

theorem cdup_name_msg_mentions (dn : String) :
    mentionsDupName dn ("Duplicate display name: " ++ sq dn) := by
  constructor
  · refine ⟨[], ':' :: ' ' :: (sq dn).data, ?_⟩
    simp only [String.data_append]
    simp [List.cons_append, List.append_assoc]
  · refine ⟨("Duplicate display name: ").data, [], ?_⟩
    simp [String.data_append, List.append_assoc]

theorem cdup_file_msg_mentions (cf : String) :
    mentionsDupFile cf ("Duplicate config file: " ++ sq cf) := by
  constructor
  · refine ⟨[], ':' :: ' ' :: (sq cf).data, ?_⟩
    simp only [String.data_append]
    simp [List.cons_append, List.append_assoc]
  · refine ⟨("Duplicate config file: ").data, [], ?_⟩
    simp [String.data_append, List.append_assoc]

theorem pc_errors_mono {msg : String} {st : VState} {home : String}
    {fx : String → Bool} {env : EnvironmentConfig}
    (h : msg ∈ st.errors) : msg ∈ (processConfigEntry home fx env st).errors := by
  unfold processConfigEntry
  rw [(cStepExists_core _ _ _ _).1]
  exact cStepFile_errors_mono (cStepName_errors_mono h)

theorem pc_names_mono {x : String} {st : VState} {home : String}
    {fx : String → Bool} {env : EnvironmentConfig}
    (h : x ∈ st.displayNames) : x ∈ (processConfigEntry home fx env st).displayNames := by
  unfold processConfigEntry
  rw [(cStepExists_core _ _ _ _).2.1, cStepFile_names_eq]
  exact cStepName_names_mono h

theorem pc_files_mono {x : String} {st : VState} {home : String}
    {fx : String → Bool} {env : EnvironmentConfig}
    (h : x ∈ st.configFiles) : x ∈ (processConfigEntry home fx env st).configFiles := by
  unfold processConfigEntry
  rw [(cStepExists_core _ _ _ _).2.2]
  apply cStepFile_files_mono
  rw [cStepName_files_eq]
  exact h

theorem pc_adds_name (home : String) (fx : String → Bool) (env : EnvironmentConfig)
    (st : VState) : env.displayName ∈ (processConfigEntry home fx env st).displayNames := by
  unfold processConfigEntry
  rw [(cStepExists_core _ _ _ _).2.1, cStepFile_names_eq]
  exact cStepName_adds _ _

theorem pc_adds_file (home : String) (fx : String → Bool) (env : EnvironmentConfig)
    (st : VState) : env.configFileName ∈ (processConfigEntry home fx env st).configFiles := by
  unfold processConfigEntry
  rw [(cStepExists_core _ _ _ _).2.2]
  exact cStepFile_adds _ _

theorem pc_dup_name {st : VState} {home : String} {fx : String → Bool}
    {env : EnvironmentConfig} (hc : env.displayName ∈ st.displayNames) :
    ∃ msg ∈ (processConfigEntry home fx env st).errors,
      mentionsDupName env.displayName msg := by
  refine ⟨"Duplicate display name: " ++ sq env.displayName, ?_,
    cdup_name_msg_mentions _⟩
  unfold processConfigEntry
  rw [(cStepExists_core _ _ _ _).1]
  exact cStepFile_errors_mono (cStepName_dup ((contains_iff_mem_strings _ _).mpr hc))

theorem pc_dup_file {st : VState} {home : String} {fx : String → Bool}
    {env : EnvironmentConfig} (hc : env.configFileName ∈ st.configFiles) :
    ∃ msg ∈ (processConfigEntry home fx env st).errors,
      mentionsDupFile env.configFileName msg := by
  refine ⟨"Duplicate config file: " ++ sq env.configFileName, ?_,
    cdup_file_msg_mentions _⟩
  unfold processConfigEntry
  rw [(cStepExists_core _ _ _ _).1]
  apply cStepFile_dup
  rw [cStepName_files_eq]
  exact (contains_iff_mem_strings _ _).mpr hc

theorem cLoop_errors_mono (cs : List EnvironmentConfig) :
    ∀ (home : String) (fx : String → Bool) (st : VState) {msg : String},
      msg ∈ st.errors → msg ∈ (cLoop home fx st cs).errors := by
  induction cs with
  | nil => intro home fx st msg h; exact h
  | cons e rest ih =>
    intro home fx st msg h
    exact ih home fx _ (pc_errors_mono h)

theorem cLoop_dup_name (cs : List EnvironmentConfig) :
    ∀ (home : String) (fx : String → Bool) (st : VState) (dn : String),
      dn ∈ st.displayNames → (∃ e ∈ cs, e.displayName = dn) →
      ∃ msg ∈ (cLoop home fx st cs).errors, mentionsDupName dn msg := by
  induction cs with
  | nil =>
    intro home fx st dn _ hw
    obtain ⟨e, he, _⟩ := hw
    cases he
  | cons e rest ih =>
    intro home fx st dn hmem hw
    obtain ⟨e0, he0, hdn⟩ := hw
    rcases List.mem_cons.mp he0 with rfl | hrest
    · obtain ⟨msg, hmsg, hment⟩ := @pc_dup_name st home fx _
        (by rw [hdn]; exact hmem)
      rw [hdn] at hment
      exact ⟨msg, cLoop_errors_mono rest home fx _ hmsg, hment⟩
    · exact ih home fx _ dn (pc_names_mono hmem) ⟨e0, hrest, hdn⟩

theorem cLoop_dup_file (cs : List EnvironmentConfig) :
    ∀ (home : String) (fx : String → Bool) (st : VState) (cf : String),
      cf ∈ st.configFiles → (∃ e ∈ cs, e.configFileName = cf) →
      ∃ msg ∈ (cLoop home fx st cs).errors, mentionsDupFile cf msg := by
  induction cs with
  | nil =>
    intro home fx st cf _ hw
    obtain ⟨e, he, _⟩ := hw
    cases he
  | cons e rest ih =>
    intro home fx st cf hmem hw
    obtain ⟨e0, he0, hcf⟩ := hw
    rcases List.mem_cons.mp he0 with rfl | hrest
    · obtain ⟨msg, hmsg, hment⟩ := @pc_dup_file st home fx _
        (by rw [hcf]; exact hmem)
      rw [hcf] at hment
      exact ⟨msg, cLoop_errors_mono rest home fx _ hmsg, hment⟩
    · exact ih home fx _ cf (pc_files_mono hmem) ⟨e0, hrest, hcf⟩

theorem cLoop_two (cs : List EnvironmentConfig) :
    ∀ (home : String) (fx : String → Bool) (st : VState) (i j : Nat)
      (ei ej : EnvironmentConfig), i < j →
      cs.get? i = some ei → cs.get? j = some ej →
      (ei.displayName = ej.displayName ∨ ei.configFileName = ej.configFileName) →
      ∃ msg ∈ (cLoop home fx st cs).errors,
        (mentionsDupName ej.displayName msg ∨ mentionsDupFile ej.configFileName msg) := by
  induction cs with
  | nil =>
    intro home fx st i j ei ej _ hi _ _
    cases hi
  | cons e rest ih =>
    intro home fx st i j ei ej hij hi hj hdis
    cases i with
    | zero =>
      obtain rfl : e = ei := Option.some.inj hi
      cases j with
      | zero => omega
      | succ j2 =>
        rcases hdis with hname | hfile
        · obtain ⟨msg, hmsg, hment⟩ := cLoop_dup_name rest home fx
            (processConfigEntry home fx e st) ej.displayName
            (by rw [← hname]; exact pc_adds_name home fx e st)
            ⟨ej, List.get?_mem hj, rfl⟩
          exact ⟨msg, hmsg, Or.inl hment⟩
        · obtain ⟨msg, hmsg, hment⟩ := cLoop_dup_file rest home fx
            (processConfigEntry home fx e st) ej.configFileName
            (by rw [← hfile]; exact pc_adds_file home fx e st)
            ⟨ej, List.get?_mem hj, rfl⟩
          exact ⟨msg, hmsg, Or.inr hment⟩
    | succ i2 =>
      cases j with
      | zero => omega
      | succ j2 =>
        exact ih home fx _ i2 j2 ei ej (by omega) hi hj hdis

theorem mem_errors_isEmpty_false {l : List String} {msg : String} (h : msg ∈ l) :
    l.isEmpty = false := by
  cases l with
  | nil => cases h
  | cons a t => rfl

theorem validateEnvironmentProps_of_ne {content : String}
    (h : ¬ (candidateLines content).isEmpty = true) :
    validateEnvironmentProps content =
      { isValid := (vLoop 0 ⟨[], [], [], []⟩ (candidateLines content)).errors.isEmpty,
        errors := (vLoop 0 ⟨[], [], [], []⟩ (candidateLines content)).errors,
        warnings := (vLoop 0 ⟨[], [], [], []⟩ (candidateLines content)).warnings } := by
  unfold validateEnvironmentProps
  rw [if_neg h]

theorem validateEnvironmentConfig_of_ne {home : String} {fx : String → Bool}
    {config : List EnvironmentConfig} (h : ¬ config.isEmpty = true) :
    validateEnvironmentConfig home fx config =
      { isValid := (cLoop home fx ⟨[], [], [], []⟩ config).errors.isEmpty,
        errors := (cLoop home fx ⟨[], [], [], []⟩ config).errors,
        warnings := (cLoop home fx ⟨[], [], [], []⟩ config).warnings } := by
  unfold validateEnvironmentConfig
  rw [if_neg h]

theorem get?_isEmpty_false {α : Type} {l : List α} {n : Nat} {a : α}
    (h : l.get? n = some a) : ¬ l.isEmpty = true := by
  cases l with
  | nil => cases h
  | cons x t => simp

/-- C8: whenever an input contains a duplicated display name or a
duplicated normalized config file name — two candidate lines whose
validator-computed display name (resp. normalized file name) coincide, or
two descriptors sharing a display name (resp. config file name) — both the
text-level validator and the descriptor-level validator return
`isValid = false` with an error message naming the duplicate; in
particular `"Local:mcp-local\nLocal:mcp-local2"` fails validation with an
error mentioning `Duplicate display name`. -/
theorem C8_duplicates_hard_errors :
    (∀ (content : String) (i j : Nat) (dn : String), i < j →
      (∃ li, (candidateLines content).get? i = some li ∧ extractName li = some dn) →
      (∃ lj, (candidateLines content).get? j = some lj ∧ extractName lj = some dn) →
      (validateEnvironmentProps content).isValid = false ∧
      ∃ msg ∈ (validateEnvironmentProps content).errors, mentionsDupName dn msg) ∧
    (∀ (content : String) (i j : Nat) (cf : String), i < j →
      (∃ li, (candidateLines content).get? i = some li ∧ extractFile li = some cf) →
      (∃ lj, (candidateLines content).get? j = some lj ∧ extractFile lj = some cf) →
      (validateEnvironmentProps content).isValid = false ∧
      ∃ msg ∈ (validateEnvironmentProps content).errors, mentionsDupFile cf msg) ∧
    (∀ (home : String) (fx : String → Bool) (config : List EnvironmentConfig)
        (i j : Nat) (ei ej : EnvironmentConfig), i < j →
      config.get? i = some ei → config.get? j = some ej →
      (ei.displayName = ej.displayName ∨ ei.configFileName = ej.configFileName) →
      (validateEnvironmentConfig home fx config).isValid = false ∧
      ∃ msg ∈ (validateEnvironmentConfig home fx config).errors,
        (mentionsDupName ej.displayName msg ∨ mentionsDupFile ej.configFileName msg)) ∧
    ((validateEnvironmentProps "Local:mcp-local\nLocal:mcp-local2").isValid = false ∧
     ∃ msg ∈ (validateEnvironmentProps "Local:mcp-local\nLocal:mcp-local2").errors,
       mentionsDupName "Local" msg) := by
  have part1 : ∀ (content : String) (i j : Nat) (dn : String), i < j →
      (∃ li, (candidateLines content).get? i = some li ∧ extractName li = some dn) →
      (∃ lj, (candidateLines content).get? j = some lj ∧ extractName lj = some dn) →
      (validateEnvironmentProps content).isValid = false ∧
      ∃ msg ∈ (validateEnvironmentProps content).errors, mentionsDupName dn msg := by
    intro content i j dn hij hi hj
    obtain ⟨li, hli, hexi⟩ := hi
    have hne := get?_isEmpty_false hli
    obtain ⟨msg, hmsg, hment⟩ := vLoop_two_name (candidateLines content) 0
      ⟨[], [], [], []⟩ i j dn hij ⟨li, hli, hexi⟩ hj
    rw [validateEnvironmentProps_of_ne hne]
    exact ⟨mem_errors_isEmpty_false hmsg, msg, hmsg, hment⟩
  refine ⟨part1, ?_, ?_, ?_⟩
  · intro content i j cf hij hi hj
    obtain ⟨li, hli, hexi⟩ := hi
    have hne := get?_isEmpty_false hli
    obtain ⟨msg, hmsg, hment⟩ := vLoop_two_file (candidateLines content) 0
      ⟨[], [], [], []⟩ i j cf hij ⟨li, hli, hexi⟩ hj
    rw [validateEnvironmentProps_of_ne hne]
    exact ⟨mem_errors_isEmpty_false hmsg, msg, hmsg, hment⟩
  · intro home fx config i j ei ej hij hi hj hdis
    have hne := get?_isEmpty_false hi
    obtain ⟨msg, hmsg, hment⟩ := cLoop_two config home fx
      ⟨[], [], [], []⟩ i j ei ej hij hi hj hdis
    rw [validateEnvironmentConfig_of_ne hne]
    exact ⟨mem_errors_isEmpty_false hmsg, msg, hmsg, hment⟩
  · exact part1 "Local:mcp-local\nLocal:mcp-local2" 0 1 "Local" (by omega)
      ⟨"Local:mcp-local".data, by decide, by decide⟩
      ⟨"Local:mcp-local2".data, by decide, by decide⟩

/-- Witness for C8 at the concrete Scenario B input. -/
theorem C8_duplicates_witness :
    (validateEnvironmentProps "Local:mcp-local\nLocal:mcp-local2").isValid = false :=
  (C8_duplicates_hard_errors.1 "Local:mcp-local\nLocal:mcp-local2" 0 1 "Local"
    (by omega)
    ⟨"Local:mcp-local".data, by decide, by decide⟩
    ⟨"Local:mcp-local2".data, by decide, by decide⟩).1

end MCPSelector
